import Mathlib

/-! lunasvg: the AGG canvas back end (`source/graphics/agg/canvasimpl.cpp`)

A shallow embedding of `CanvasImpl` and of `GradientWrapper`, followed by the
properties of the rasterization facade that are checked against it.

Conventions of the embedding.

* Memory is byte addressed: `Mem` gives the `std::uint8_t` stored at every
  address, a pointer is an address, `*ptr++` reads `m ptr` and steps by one.
* `unsigned`/`std::uint32_t` arithmetic is taken modulo `2^32`, a store to a
  `std::uint8_t` modulo `2^8`.
* Signed `int` arithmetic is exact inside the `int` range and is `none` outside it
  (signed overflow, division by zero), as is a floating to integer conversion whose
  truncated value the target type cannot hold.
* A `double` is the rational number it denotes. A product of two doubles is the exact
  product rounded to the nearest binary64 value, ties to even (`mulDouble`); the sum of
  the dash lengths, which is only compared with zero, is taken exactly.
* The AGG library is not part of the translation unit: its rasterizer, renderers and
  converters are the fields of `Agg`, arbitrary functions on the canvas state.
* A `while` loop carries a fuel argument; the callers pass enough of it, and the
  theorems show that the result is `some`.
-/

namespace lunasvg

/-! ## Memory and scalar conversions -/

/-- Byte addressed memory: the `std::uint8_t` value found at each address. -/
abbrev Mem := Nat → Nat

/-- The store `*p = v` of a byte. -/
def Mem.store (m : Mem) (p v : Nat) : Mem := fun q => if q = p then v else m q

/-- Conversion of a non-negative integral value to `std::uint8_t`. -/
def toUint8 (v : Nat) : Nat := v % 2 ^ 8

/-- Reduction of an unsigned value to 32 bits (`unsigned int`, `std::uint32_t`). -/
def toUint32 (v : Nat) : Nat := v % 2 ^ 32

/-- A `double`, taken as an exact rational number. -/
abbrev Double := ℚ

/-- Rounding to the nearest integer, ties to the even one. -/
def roundHalfEven (y : ℚ) : Int :=
  let f := ⌊y⌋
  let r := y - f
  if r < 1 / 2 then f else if 1 / 2 < r then f + 1 else if f % 2 = 0 then f else f + 1

/-- The binary exponent of the unit in the last place of the binary64 values around `x`:
53 significant bits below the leading one, and never below the subnormal spacing
`2^-1074`. -/
def ulpExponent (x : ℚ) : Int := max (Int.log 2 |x|) (-1022) - 52

/-- The binary64 value nearest to `x`, ties to even (IEEE 754 round to nearest; the
exponent is not bounded above, no caller goes near the overflow threshold before its
result is out of range for the byte it is converted to). -/
def roundToDouble (x : ℚ) : Double :=
  (roundHalfEven (x / (2 : ℚ) ^ ulpExponent x) : ℚ) * (2 : ℚ) ^ ulpExponent x

/-- The product `x * y` of two doubles. -/
def mulDouble (x y : Double) : Double := roundToDouble (x * y)

/-- Truncation toward zero, the integral part a floating to integer conversion keeps. -/
def truncate (x : Double) : Int := if 0 ≤ x then ⌊x⌋ else ⌈x⌉

/-- The conversion `std::uint8_t(x)` (also `agg::cover_type(x)`) of a `double`: the
truncated value when an unsigned char can hold it, undefined otherwise. -/
def doubleToUint8 (x : Double) : Option Nat :=
  let t := truncate x
  if 0 ≤ t ∧ t ≤ 255 then some t.toNat else none

/-- Smallest value of a 32 bit `int`. -/
def INT_MIN : Int := -2 ^ 31

/-- Largest value of a 32 bit `int`. -/
def INT_MAX : Int := 2 ^ 31 - 1

/-- An `int` result: the exact value when it is representable, undefined otherwise. -/
def checkInt (x : Int) : Option Int := if INT_MIN ≤ x ∧ x ≤ INT_MAX then some x else none

/-- The conversion `int(x)` of a `double`. -/
def doubleToInt (x : Double) : Option Int := checkInt (truncate x)

/-- The C++ remainder `a % b` on `int`: truncating, undefined for a zero divisor and for
an unrepresentable quotient. -/
def intRem (a b : Int) : Option Int :=
  if b = 0 ∨ (a = INT_MIN ∧ b = -1) then none else some (Int.tmod a b)

/-! ## Collaborator types (headers outside the translation unit) -/

/-- Modelled from the spec: `rgb.h` is missing; four channels `r,g,b,a` in `[0,255]`,
not pre-multiplied. -/
structure Rgb where
  r : Nat
  g : Nat
  b : Nat
  a : Nat
deriving DecidableEq, Repr

/-- The device colour `agg::rgba8`. -/
structure Rgba8 where
  r : Nat
  g : Nat
  b : Nat
  a : Nat
deriving DecidableEq, Repr

/-- Modelled from the spec: the fill rule enumeration `WindRule` is declared elsewhere. -/
inductive WindRule where
  | WindRuleNonZero
  | WindRuleEvenOdd
deriving DecidableEq, Repr

/-- Modelled from the spec: `LineCap` is declared in `strokedata.h`. -/
inductive LineCap where
  | LineCapButt
  | LineCapRound
  | LineCapSquare
deriving DecidableEq, Repr

/-- Modelled from the spec: `LineJoin` is declared in `strokedata.h`. -/
inductive LineJoin where
  | LineJoinMiter
  | LineJoinRound
  | LineJoinBevel
deriving DecidableEq, Repr

/-- Modelled from the spec: `BlendMode` is declared elsewhere; the source names
`BlendModeDst_In` only. -/
inductive BlendMode where
  | BlendModeSrc_Over
  | BlendModeDst_In
deriving DecidableEq, Repr

/-- Modelled from the spec: `SpreadMethod` is declared in `gradient.h`. -/
inductive SpreadMethod where
  | SpreadMethodPad
  | SpreadMethodRepeat
  | SpreadMethodReflect
deriving DecidableEq, Repr

/-- Modelled from the spec: `AffineTransform` exposes six doubles (`getMatrix`). -/
structure AffineTransform where
  m0 : Double
  m1 : Double
  m2 : Double
  m3 : Double
  m4 : Double
  m5 : Double
deriving DecidableEq

/-- Modelled from the spec: a path segment as `PathIterator::currentSegment` yields it,
the kind together with its coordinates. -/
inductive Segment where
  | SegTypeMoveTo (x y : Double)
  | SegTypeLineTo (x y : Double)
  | SegTypeQuadTo (cx cy x y : Double)
  | SegTypeCubicTo (c1x c1y c2x c2y x y : Double)
  | SegTypeClose
deriving DecidableEq

/-- Modelled from the spec: a `Path` is the finite sequence its iterator runs through. -/
abbrev Path := List Segment

/-- Modelled from the spec: `paint.h` is missing; a paint is a tagged variant
`None | Color | Gradient` with an opacity. `G` is the gradient descriptor. -/
inductive Paint (G : Type) where
  | none
  | color (c : Rgb) (opacity : Double)
  | gradient (g : G) (opacity : Double)

/-- Modelled from the spec: `Paint::isNone()`. -/
def Paint.isNone {G : Type} : Paint G → Bool
  | Paint.none => true
  | _ => false

/-- Modelled from the spec: `strokedata.h` is missing; the accessors `draw` reads. -/
structure StrokeData where
  width : Double
  cap : LineCap
  join : LineJoin
  miterLimit : Double
  dashOffset : Double
  dash : List Double

/-! ## AGG values built by the translation unit -/

/-- The AGG filling rule `agg::filling_rule_e`. -/
inductive filling_rule_e where
  | fill_non_zero
  | fill_even_odd
deriving DecidableEq, Repr

/-- The AGG cap style `agg::line_cap_e`. -/
inductive line_cap_e where
  | butt_cap
  | square_cap
  | round_cap
deriving DecidableEq, Repr

/-- The AGG join style `agg::line_join_e` (the values `draw` can produce). -/
inductive line_join_e where
  | miter_join
  | round_join
  | bevel_join
deriving DecidableEq, Repr

/-- The AGG compositing operator `agg::comp_op_e` (the values `blend` can produce). -/
inductive comp_op_e where
  | comp_op_src_over
  | comp_op_dst_in
deriving DecidableEq, Repr

/-- The matrix `agg::trans_affine`. -/
structure trans_affine where
  sx : Double
  shy : Double
  shx : Double
  sy : Double
  tx : Double
  ty : Double
deriving DecidableEq

/-- A command stored in `agg::path_storage`. -/
inductive PathCmd where
  | move_to (x y : Double)
  | line_to (x y : Double)
  | curve3 (x_ctrl y_ctrl x_to y_to : Double)
  | curve4 (x_ctrl1 y_ctrl1 x_ctrl2 y_ctrl2 x_to y_to : Double)
  | close_polygon
deriving DecidableEq

/-- The converter pipelines `draw` hands to `rasterizer.add_path`, each converter with
the settings `draw` gives it. -/
inductive VertexSource where
  | path_storage (cmds : List PathCmd)
  | conv_curve (src : VertexSource) (approximation_scale angle_tolerance : Double)
  | conv_dash (src : VertexSource) (dashes : List (Double × Double)) (dash_start : Double)
  | conv_stroke (src : VertexSource) (width : Double) (cap : line_cap_e) (join : line_join_e)
      (miter_limit : Double)
  | conv_transform (src : VertexSource) (mtx : trans_affine)
deriving DecidableEq

/-- The state of a `CanvasImpl`: the memory holding the pixels, the attached
`m_buffer` (first byte, width, height, stride) and the AGG scratch state
(`m_rasterizer`, the renderers), of type `R`. -/
structure CanvasImpl (R : Type) where
  mem : Mem
  data : Nat
  width : Nat
  height : Nat
  stride : Nat
  agg : R

/-- The AGG operations the translation unit calls. `G` is the gradient descriptor;
`render_gradient` stands for the whole `PaintTypeGradient` branch of `renderScanlines`. -/
structure Agg (R G : Type) where
  rasterizer_reset : CanvasImpl R → CanvasImpl R
  rasterizer_filling_rule : filling_rule_e → CanvasImpl R → CanvasImpl R
  rasterizer_add_path : VertexSource → CanvasImpl R → CanvasImpl R
  scale : trans_affine → Double
  render_solid : Rgba8 → CanvasImpl R → CanvasImpl R
  render_gradient : trans_affine → G → Double → CanvasImpl R → CanvasImpl R
  blend_from : comp_op_e → CanvasImpl R → Int → Int → Nat → CanvasImpl R → CanvasImpl R

/-! ## The translation unit -/

/-- The helper `to_agg_fill_rule`. -/
def to_agg_fill_rule (fillRule : WindRule) : filling_rule_e :=
  if fillRule = WindRule.WindRuleNonZero then filling_rule_e.fill_non_zero
  else filling_rule_e.fill_even_odd

/-- The helper `to_agg_line_cap`. -/
def to_agg_line_cap (cap : LineCap) : line_cap_e :=
  if cap = LineCap.LineCapButt then line_cap_e.butt_cap
  else if cap = LineCap.LineCapRound then line_cap_e.round_cap
  else line_cap_e.square_cap

/-- The helper `to_agg_line_join`. -/
def to_agg_line_join (join : LineJoin) : line_join_e :=
  if join = LineJoin.LineJoinBevel then line_join_e.bevel_join
  else if join = LineJoin.LineJoinMiter then line_join_e.miter_join
  else line_join_e.round_join

/-- The helper `to_agg_transform`. -/
def to_agg_transform (matrix : AffineTransform) : trans_affine :=
  ⟨matrix.m0, matrix.m1, matrix.m2, matrix.m3, matrix.m4, matrix.m5⟩

/-- The helper `to_agg_comp_op`. -/
def to_agg_comp_op (mode : BlendMode) : comp_op_e :=
  if mode = BlendMode.BlendModeDst_In then comp_op_e.comp_op_dst_in
  else comp_op_e.comp_op_src_over

/-- The cover `agg::cover_type(opacity * 255)` that `blend` computes. -/
def blendCover (opacity : Double) : Option Nat := doubleToUint8 (mulDouble opacity 255)

/-- The method `CanvasImpl::blend`. -/
def CanvasImpl.blend {R G : Type} (A : Agg R G) (self source : CanvasImpl R) (mode : BlendMode)
    (opacity dx dy : Double) : Option (CanvasImpl R) := do
  let x ← doubleToInt dx
  let y ← doubleToInt dy
  let cover ← blendCover opacity
  pure (A.blend_from (to_agg_comp_op mode) source x y cover self)

/-- The colour `agg::rgba8(c->r, c->g, c->b, std::uint8_t(c->a * paint.opacity()))` of
the `PaintTypeColor` branch. -/
def solidColor (c : Rgb) (opacity : Double) : Option Rgba8 := do
  let a ← doubleToUint8 (mulDouble (c.a : Double) opacity)
  pure ⟨c.r, c.g, c.b, a⟩

/-- The method `CanvasImpl::renderScanlines`. -/
def CanvasImpl.renderScanlines {R G : Type} (A : Agg R G) (self : CanvasImpl R)
    (matrix : trans_affine) (paint : Paint G) : Option (CanvasImpl R) :=
  match paint with
  | Paint.color c opacity => do
    let color ← solidColor c opacity
    pure (A.render_solid color self)
  | Paint.gradient g opacity => some (A.render_gradient matrix g opacity self)
  | Paint.none => some self

/-- The translation of one path segment into the `path_storage` call of the first loop
of `draw`. -/
def toPathCmd : Segment → PathCmd
  | Segment.SegTypeMoveTo x y => PathCmd.move_to x y
  | Segment.SegTypeLineTo x y => PathCmd.line_to x y
  | Segment.SegTypeQuadTo cx cy x y => PathCmd.curve3 cx cy x y
  | Segment.SegTypeCubicTo c1x c1y c2x c2y x y => PathCmd.curve4 c1x c1y c2x c2y x y
  | Segment.SegTypeClose => PathCmd.close_polygon

/-- The sum `std::accumulate(dash.begin(), dash.end(), 0.0)`. -/
def accumulate (dashes : List Double) : Double := dashes.foldl (fun s x => s + x) 0

/-- The count `num_dash` (a `std::size_t`, 64 bits). -/
def numDash (size : Nat) : Nat := if size % 2 = 0 then size else (size * 2) % 2 ^ 64

/-- The loop `for(unsigned int i = 0; i < num_dash; i += 2) add_dash(dashes[i % size],
dashes[(i+1) % size])`: the `add_dash` calls made from counter `i` on, in order; `none`
when an index leaves the array or the fuel runs out. -/
def addDashLoop (dashes : List Double) (num_dash : Nat) : Nat → Nat → Option (List (Double × Double))
  | 0, i => if i < num_dash then none else some []
  | fuel + 1, i =>
    if i < num_dash then do
      let dash_len ← dashes[i % dashes.length]?
      let gap_len ← dashes[toUint32 (i + 1) % dashes.length]?
      let rest ← addDashLoop dashes num_dash fuel (toUint32 (i + 2))
      pure ((dash_len, gap_len) :: rest)
    else some []

/-- The `add_dash` calls of the dashed branch of the stroke pass. -/
def addDashes (dashes : List Double) : Option (List (Double × Double)) :=
  addDashLoop dashes (numDash dashes.length) (numDash dashes.length) 0

/-- The vertex source that the stroke pass of `draw` adds to the rasterizer. -/
def strokeSource {R G : Type} (A : Agg R G) (_path : List PathCmd) (_matrix : trans_affine)
    (strokeData : StrokeData) : Option VertexSource :=
  let curved := VertexSource.conv_curve (VertexSource.path_storage _path) (A.scale _matrix) 0
  if accumulate strokeData.dash ≠ 0 then do
    let dashes ← addDashes strokeData.dash
    let curved_dash := VertexSource.conv_dash curved dashes strokeData.dashOffset
    let curved_dash_stroke := VertexSource.conv_stroke curved_dash strokeData.width
      (to_agg_line_cap strokeData.cap) (to_agg_line_join strokeData.join) strokeData.miterLimit
    pure (VertexSource.conv_transform curved_dash_stroke _matrix)
  else
    let curved_stroke := VertexSource.conv_stroke curved strokeData.width
      (to_agg_line_cap strokeData.cap) (to_agg_line_join strokeData.join) strokeData.miterLimit
    some (VertexSource.conv_transform curved_stroke _matrix)

/-- The fill pass of `draw` (the block under `if(!fillPaint.isNone())`). -/
def fillPass {R G : Type} (A : Agg R G) (self : CanvasImpl R) (_path : List PathCmd)
    (_matrix : trans_affine) (fillRule : WindRule) (fillPaint : Paint G) :
    Option (CanvasImpl R) :=
  let s := A.rasterizer_reset self
  let s := A.rasterizer_filling_rule (to_agg_fill_rule fillRule) s
  let curved := VertexSource.conv_curve (VertexSource.path_storage _path) (A.scale _matrix) 0
  let s := A.rasterizer_add_path (VertexSource.conv_transform curved _matrix) s
  CanvasImpl.renderScanlines A s _matrix fillPaint

/-- The stroke pass of `draw` (the block under `if(!strokePaint.isNone())`). -/
def strokePass {R G : Type} (A : Agg R G) (self : CanvasImpl R) (_path : List PathCmd)
    (_matrix : trans_affine) (strokePaint : Paint G) (strokeData : StrokeData) :
    Option (CanvasImpl R) := do
  let s := A.rasterizer_reset self
  let s := A.rasterizer_filling_rule filling_rule_e.fill_non_zero s
  let src ← strokeSource A _path _matrix strokeData
  let s := A.rasterizer_add_path src s
  CanvasImpl.renderScanlines A s _matrix strokePaint

/-- The method `CanvasImpl::draw`. -/
def CanvasImpl.draw {R G : Type} (A : Agg R G) (self : CanvasImpl R) (path : Path)
    (matrix : AffineTransform) (fillRule : WindRule) (fillPaint strokePaint : Paint G)
    (strokeData : StrokeData) : Option (CanvasImpl R) :=
  if fillPaint.isNone && strokePaint.isNone then some self
  else do
    let _matrix := to_agg_transform matrix
    let _path := path.map toPathCmd
    let s ← if !fillPaint.isNone then fillPass A self _path _matrix fillRule fillPaint
      else some self
    let s ← if !strokePaint.isNone then strokePass A s _path _matrix strokePaint strokeData
      else some s
    pure s

/-- The number of bytes `height() * stride()` the whole-buffer loops run over
(an `unsigned int` product). -/
def CanvasImpl.byteCount {R : Type} (self : CanvasImpl R) : Nat :=
  toUint32 (self.height * self.stride)

/-- The loop of `updateLuminance`, from `ptr` up to `end_`. -/
def updateLuminanceLoop (end_ : Nat) : Nat → Mem → Nat → Option Mem
  | 0, m, ptr => if ptr < end_ then none else some m
  | fuel + 1, m, ptr =>
    if ptr < end_ then
      let b := m ptr
      let g := m (ptr + 1)
      let r := m (ptr + 2)
      let luminosity := toUint32 (2 * r + 3 * g + b) / 6
      updateLuminanceLoop end_ fuel (m.store (ptr + 3) (toUint8 luminosity)) (ptr + 4)
    else some m

/-- The method `CanvasImpl::updateLuminance`. -/
def CanvasImpl.updateLuminance {R : Type} (self : CanvasImpl R) : Option (CanvasImpl R) := do
  let m ← updateLuminanceLoop (self.data + self.byteCount) self.byteCount self.mem self.data
  pure { self with mem := m }

/-- The loop of `convertToRGBA`, from `ptr` up to `end_`. -/
def convertToRGBALoop (end_ : Nat) : Nat → Mem → Nat → Option Mem
  | 0, m, ptr => if ptr < end_ then none else some m
  | fuel + 1, m, ptr =>
    if ptr < end_ then
      let a := m (ptr + 3)
      if a ≠ 0 then
        let r := m (ptr + 2)
        let g := m (ptr + 1)
        let b := m ptr
        let m := m.store ptr (toUint8 ((r * 255) / a))
        let m := m.store (ptr + 1) (toUint8 ((g * 255) / a))
        let m := m.store (ptr + 2) (toUint8 ((b * 255) / a))
        let m := m.store (ptr + 3) a
        convertToRGBALoop end_ fuel m (ptr + 4)
      else
        let m := m.store ptr 0
        let m := m.store (ptr + 1) 0
        let m := m.store (ptr + 2) 0
        let m := m.store (ptr + 3) 0
        convertToRGBALoop end_ fuel m (ptr + 4)
    else some m

/-- The method `CanvasImpl::convertToRGBA`. -/
def CanvasImpl.convertToRGBA {R : Type} (self : CanvasImpl R) : Option (CanvasImpl R) := do
  let m ← convertToRGBALoop (self.data + self.byteCount) self.byteCount self.mem self.data
  pure { self with mem := m }

/-- The method `GradientWrapper::calculate`; `m_gradient` is the wrapped gradient
function, `m_spread` the spread method. -/
def GradientWrapper.calculate (m_gradient : Int → Int → Int → Int) (m_spread : SpreadMethod)
    (x y d : Int) : Option Int :=
  let val := m_gradient x y d
  match m_spread with
  | SpreadMethod.SpreadMethodPad =>
    if val < 0 then some 0
    else if val > d then some d
    else some val
  | SpreadMethod.SpreadMethodRepeat => do
    let ret ← intRem val d
    let ret ← if ret < 0 then checkInt (ret + d) else some ret
    pure ret
  | SpreadMethod.SpreadMethodReflect => do
    let d2 ← checkInt (d * 2)
    let ret ← intRem val d2
    let ret ← if ret < 0 then checkInt (ret + d2) else some ret
    let ret ← if ret ≥ d then checkInt (d2 - ret) else some ret
    pure ret

/-! ## The formulas of the specification -/

/-- The specification's `clamp(v, lo, hi)`. -/
def clamp {α : Type} [LinearOrder α] (v lo hi : α) : α := max lo (min v hi)

/-- The spread table of the specification, in its own words, over a remainder
operation `mod` (the Euclidean `Int.emod` or the truncating `Int.tmod` of C++). -/
def spreadSpec (mod : Int → Int → Int) (spread : SpreadMethod) (v D : Int) : Int :=
  match spread with
  | SpreadMethod.SpreadMethodPad => clamp v 0 D
  | SpreadMethod.SpreadMethodRepeat => mod (mod v D + D) D
  | SpreadMethod.SpreadMethodReflect =>
    let m := mod (mod v (2 * D) + 2 * D) (2 * D)
    if m < D then m else 2 * D - m

/-- The specification's cover factor of `blend`: `round(clamp(opacity,0,1)·255)`. -/
def coverSpec (opacity : Double) : Int := round (clamp opacity 0 1 * 255)

/-- The specification's alpha of a solid paint: `round(c.a · opacity)`. -/
def alphaSpec (a : Nat) (opacity : Double) : Int := round ((a : Double) * opacity)

/-- The `(on, off)` pairs of a dasher, flattened in order. -/
def flattenPairs (pairs : List (Double × Double)) : List Double :=
  pairs.flatMap (fun p => [p.1, p.2])

/-! ## Concrete inputs -/

/-- A canvas of one pixel at address 0 holding the bytes `b, g, r, a` (stride 4). -/
def onePixel (b g r a : Nat) : CanvasImpl Unit :=
  { mem := fun p => [b, g, r, a].getD p 0, data := 0, width := 1, height := 1, stride := 4,
    agg := () }

/-- An AGG back end that draws nothing. -/
def nullAgg : Agg Unit Unit :=
  { rasterizer_reset := id
    rasterizer_filling_rule := fun _ s => s
    rasterizer_add_path := fun _ s => s
    scale := fun _ => 1
    render_solid := fun _ s => s
    render_gradient := fun _ _ _ s => s
    blend_from := fun _ _ _ _ _ s => s }

/-- The gradient function `agg::gradient_x`, which returns `x`. -/
def gradient_x (x _y _d : Int) : Int := x

/-- Stroke data of width 4 with the dash array `dash`. -/
def strokeWith (dash : List Double) : StrokeData :=
  { width := 4, cap := LineCap.LineCapButt, join := LineJoin.LineJoinMiter, miterLimit := 4,
    dashOffset := 0, dash := dash }

/-! ## Memory and loop lemmas -/

theorem Mem.store_same (m : Mem) (p v : Nat) : m.store p v p = v := by
  simp [Mem.store]

theorem Mem.store_other (m : Mem) (p v q : Nat) (h : q ≠ p) : m.store p v q = m q := by
  simp [Mem.store, h]

/-- Four stores into the pixel at `ptr` leave every address outside the pixel alone. -/
theorem Mem.store_pixel_frame (m : Mem) (ptr v0 v1 v2 v3 q : Nat)
    (h : q < ptr ∨ ptr + 4 ≤ q) :
    ((((m.store ptr v0).store (ptr + 1) v1).store (ptr + 2) v2).store (ptr + 3) v3) q
      = m q := by
  have d3 : q ≠ ptr + 3 := by omega
  have d2 : q ≠ ptr + 2 := by omega
  have d1 : q ≠ ptr + 1 := by omega
  have d0 : q ≠ ptr := by omega
  rw [Mem.store_other _ _ _ _ d3, Mem.store_other _ _ _ _ d2, Mem.store_other _ _ _ _ d1,
    Mem.store_other _ _ _ _ d0]

theorem updateLuminanceLoop_spec (end_ : Nat) :
    ∀ (fuel : Nat) (m : Mem) (ptr : Nat), end_ ≤ ptr + 4 * fuel →
      ∃ m', updateLuminanceLoop end_ fuel m ptr = some m' ∧
        (∀ q, q < ptr → m' q = m q) ∧
        (∀ k, ptr + 4 * k < end_ →
          m' (ptr + 4 * k) = m (ptr + 4 * k) ∧
          m' (ptr + 4 * k + 1) = m (ptr + 4 * k + 1) ∧
          m' (ptr + 4 * k + 2) = m (ptr + 4 * k + 2) ∧
          m' (ptr + 4 * k + 3) = toUint8 (toUint32 (2 * m (ptr + 4 * k + 2)
            + 3 * m (ptr + 4 * k + 1) + m (ptr + 4 * k)) / 6)) := by
  intro fuel
  induction fuel with
  | zero =>
    intro m ptr h
    refine ⟨m, ?_, fun _ _ => rfl, ?_⟩
    · have : ¬ ptr < end_ := by omega
      simp [updateLuminanceLoop, this]
    · intro k hk
      omega
  | succ fuel ih =>
    intro m ptr h
    by_cases hlt : ptr < end_
    · obtain ⟨m', hrun, hbelow, hpix⟩ := ih (m.store (ptr + 3) (toUint8 (toUint32
        (2 * m (ptr + 2) + 3 * m (ptr + 1) + m ptr) / 6))) (ptr + 4) (by omega)
      refine ⟨m', ?_, ?_, ?_⟩
      · simp only [updateLuminanceLoop, hlt, if_true]
        exact hrun
      · intro q hq
        rw [hbelow q (by omega), Mem.store_other _ _ _ _ (by omega)]
      · intro k hk
        cases k with
        | zero =>
          simp only [Nat.mul_zero, Nat.add_zero]
          rw [hbelow ptr (by omega), hbelow (ptr + 1) (by omega), hbelow (ptr + 2) (by omega),
            hbelow (ptr + 3) (by omega)]
          rw [Mem.store_other _ _ _ _ (by omega), Mem.store_other _ _ _ _ (by omega),
            Mem.store_other _ _ _ _ (by omega), Mem.store_same]
          exact ⟨rfl, rfl, rfl, rfl⟩
        | succ j =>
          have e : ptr + 4 * (j + 1) = ptr + 4 + 4 * j := by omega
          obtain ⟨h0, h1, h2, h3⟩ := hpix j (by omega)
          rw [e, h0, h1, h2, h3]
          rw [Mem.store_other _ _ _ _ (by omega), Mem.store_other _ _ _ _ (by omega),
            Mem.store_other _ _ _ _ (by omega)]
          exact ⟨rfl, rfl, rfl, rfl⟩
    · refine ⟨m, ?_, fun _ _ => rfl, ?_⟩
      · simp [updateLuminanceLoop, hlt]
      · intro k hk
        omega

theorem convertToRGBALoop_spec (end_ : Nat) :
    ∀ (fuel : Nat) (m : Mem) (ptr : Nat), end_ ≤ ptr + 4 * fuel →
      ∃ m', convertToRGBALoop end_ fuel m ptr = some m' ∧
        (∀ q, q < ptr → m' q = m q) ∧
        (∀ k, ptr + 4 * k < end_ →
          (m (ptr + 4 * k + 3) ≠ 0 →
            m' (ptr + 4 * k) = toUint8 (m (ptr + 4 * k + 2) * 255 / m (ptr + 4 * k + 3)) ∧
            m' (ptr + 4 * k + 1) = toUint8 (m (ptr + 4 * k + 1) * 255 / m (ptr + 4 * k + 3)) ∧
            m' (ptr + 4 * k + 2) = toUint8 (m (ptr + 4 * k) * 255 / m (ptr + 4 * k + 3)) ∧
            m' (ptr + 4 * k + 3) = m (ptr + 4 * k + 3)) ∧
          (m (ptr + 4 * k + 3) = 0 →
            m' (ptr + 4 * k) = 0 ∧ m' (ptr + 4 * k + 1) = 0 ∧
            m' (ptr + 4 * k + 2) = 0 ∧ m' (ptr + 4 * k + 3) = 0)) := by
  intro fuel
  induction fuel with
  | zero =>
    intro m ptr h
    refine ⟨m, ?_, fun _ _ => rfl, ?_⟩
    · have : ¬ ptr < end_ := by omega
      simp [convertToRGBALoop, this]
    · intro k hk
      omega
  | succ fuel ih =>
    intro m ptr h
    by_cases hlt : ptr < end_
    · by_cases ha : m (ptr + 3) = 0
      · obtain ⟨m', hrun, hbelow, hpix⟩ := ih ((((m.store ptr 0).store (ptr + 1) 0).store
          (ptr + 2) 0).store (ptr + 3) 0) (ptr + 4) (by omega)
        refine ⟨m', ?_, ?_, ?_⟩
        · simp only [convertToRGBALoop, hlt, if_true, ha, ne_eq, not_true_eq_false, if_false]
          exact hrun
        · intro q hq
          rw [hbelow q (by omega)]
          exact Mem.store_pixel_frame _ _ _ _ _ _ _ (Or.inl hq)
        · intro k hk
          cases k with
          | zero =>
            simp only [Nat.mul_zero, Nat.add_zero]
            rw [hbelow ptr (by omega), hbelow (ptr + 1) (by omega), hbelow (ptr + 2) (by omega),
              hbelow (ptr + 3) (by omega)]
            refine ⟨fun hne => absurd ha hne, fun _ => ?_⟩
            simp [Mem.store]
          | succ j =>
            have e : ptr + 4 * (j + 1) = ptr + 4 + 4 * j := by omega
            have hpj := hpix j (by omega)
            rw [e]
            have f0 := fun v0 v1 v2 v3 =>
              Mem.store_pixel_frame m ptr v0 v1 v2 v3 (ptr + 4 + 4 * j) (Or.inr (by omega))
            have f1 := fun v0 v1 v2 v3 =>
              Mem.store_pixel_frame m ptr v0 v1 v2 v3 (ptr + 4 + 4 * j + 1) (Or.inr (by omega))
            have f2 := fun v0 v1 v2 v3 =>
              Mem.store_pixel_frame m ptr v0 v1 v2 v3 (ptr + 4 + 4 * j + 2) (Or.inr (by omega))
            have f3 := fun v0 v1 v2 v3 =>
              Mem.store_pixel_frame m ptr v0 v1 v2 v3 (ptr + 4 + 4 * j + 3) (Or.inr (by omega))
            rw [f0, f1, f2, f3] at hpj
            exact hpj
      · obtain ⟨m', hrun, hbelow, hpix⟩ := ih ((((m.store ptr
          (toUint8 (m (ptr + 2) * 255 / m (ptr + 3)))).store (ptr + 1)
          (toUint8 (m (ptr + 1) * 255 / m (ptr + 3)))).store (ptr + 2)
          (toUint8 (m ptr * 255 / m (ptr + 3)))).store (ptr + 3) (m (ptr + 3)))
          (ptr + 4) (by omega)
        refine ⟨m', ?_, ?_, ?_⟩
        · simp only [convertToRGBALoop, hlt, if_true, ha, ne_eq, not_false_eq_true]
          exact hrun
        · intro q hq
          rw [hbelow q (by omega)]
          exact Mem.store_pixel_frame _ _ _ _ _ _ _ (Or.inl hq)
        · intro k hk
          cases k with
          | zero =>
            simp only [Nat.mul_zero, Nat.add_zero]
            rw [hbelow ptr (by omega), hbelow (ptr + 1) (by omega), hbelow (ptr + 2) (by omega),
              hbelow (ptr + 3) (by omega)]
            refine ⟨fun _ => ?_, fun h0 => absurd h0 ha⟩
            simp [Mem.store]
          | succ j =>
            have e : ptr + 4 * (j + 1) = ptr + 4 + 4 * j := by omega
            have hpj := hpix j (by omega)
            rw [e]
            have f0 := fun v0 v1 v2 v3 =>
              Mem.store_pixel_frame m ptr v0 v1 v2 v3 (ptr + 4 + 4 * j) (Or.inr (by omega))
            have f1 := fun v0 v1 v2 v3 =>
              Mem.store_pixel_frame m ptr v0 v1 v2 v3 (ptr + 4 + 4 * j + 1) (Or.inr (by omega))
            have f2 := fun v0 v1 v2 v3 =>
              Mem.store_pixel_frame m ptr v0 v1 v2 v3 (ptr + 4 + 4 * j + 2) (Or.inr (by omega))
            have f3 := fun v0 v1 v2 v3 =>
              Mem.store_pixel_frame m ptr v0 v1 v2 v3 (ptr + 4 + 4 * j + 3) (Or.inr (by omega))
            rw [f0, f1, f2, f3] at hpj
            exact hpj
    · refine ⟨m, ?_, fun _ _ => rfl, ?_⟩
      · simp [convertToRGBALoop, hlt]
      · intro k hk
        omega

theorem updateLuminance_run {R : Type} (c : CanvasImpl R) :
    ∃ m', c.updateLuminance = some { c with mem := m' } ∧
      ∀ k, 4 * k < c.byteCount →
        m' (c.data + 4 * k) = c.mem (c.data + 4 * k) ∧
        m' (c.data + 4 * k + 1) = c.mem (c.data + 4 * k + 1) ∧
        m' (c.data + 4 * k + 2) = c.mem (c.data + 4 * k + 2) ∧
        m' (c.data + 4 * k + 3) = toUint8 (toUint32 (2 * c.mem (c.data + 4 * k + 2)
          + 3 * c.mem (c.data + 4 * k + 1) + c.mem (c.data + 4 * k)) / 6) := by
  obtain ⟨m', hrun, -, hpix⟩ := updateLuminanceLoop_spec (c.data + c.byteCount) c.byteCount
    c.mem c.data (by omega)
  refine ⟨m', ?_, fun k hk => hpix k (by omega)⟩
  simp [CanvasImpl.updateLuminance, hrun]

theorem convertToRGBA_run {R : Type} (c : CanvasImpl R) :
    ∃ m', c.convertToRGBA = some { c with mem := m' } ∧
      ∀ k, 4 * k < c.byteCount →
        (c.mem (c.data + 4 * k + 3) ≠ 0 →
          m' (c.data + 4 * k)
            = toUint8 (c.mem (c.data + 4 * k + 2) * 255 / c.mem (c.data + 4 * k + 3)) ∧
          m' (c.data + 4 * k + 1)
            = toUint8 (c.mem (c.data + 4 * k + 1) * 255 / c.mem (c.data + 4 * k + 3)) ∧
          m' (c.data + 4 * k + 2)
            = toUint8 (c.mem (c.data + 4 * k) * 255 / c.mem (c.data + 4 * k + 3)) ∧
          m' (c.data + 4 * k + 3) = c.mem (c.data + 4 * k + 3)) ∧
        (c.mem (c.data + 4 * k + 3) = 0 →
          m' (c.data + 4 * k) = 0 ∧ m' (c.data + 4 * k + 1) = 0 ∧
          m' (c.data + 4 * k + 2) = 0 ∧ m' (c.data + 4 * k + 3) = 0) := by
  obtain ⟨m', hrun, -, hpix⟩ := convertToRGBALoop_spec (c.data + c.byteCount) c.byteCount
    c.mem c.data (by omega)
  refine ⟨m', ?_, fun k hk => hpix k (by omega)⟩
  simp [CanvasImpl.convertToRGBA, hrun]

/-- For a channel `x` of a pre-multiplied pixel (`x ≤ a`, `a ≠ 0`) the quotient
`x * 255 / a` fits a byte. -/
theorem unpremultiply_le (x a : Nat) (hx : x ≤ a) (ha : a ≠ 0) : x * 255 / a ≤ 255 := by
  have h : x * 255 ≤ 255 * a := by nlinarith
  calc x * 255 / a ≤ 255 * a / a := Nat.div_le_div_right h
    _ = 255 := Nat.mul_div_cancel _ (Nat.pos_of_ne_zero ha)

/-- Un-premultiplying a channel and multiplying it back loses at most one. -/
theorem roundtrip_channel (x a : Nat) (ha : a ≤ 255) (h0 : a ≠ 0) :
    x * 255 / a * a / 255 ≤ x ∧ x ≤ x * 255 / a * a / 255 + 1 := by
  have h1 := Nat.div_add_mod (x * 255) a
  have h2 := Nat.mod_lt (x * 255) (Nat.pos_of_ne_zero h0)
  have h3 := Nat.div_add_mod (x * 255 / a * a) 255
  have h4 := Nat.mod_lt (x * 255 / a * a) (by decide : 255 > 0)
  have h5 : a * (x * 255 / a) = x * 255 / a * a := Nat.mul_comm _ _
  constructor <;> omega

/-- The luminosity of three bytes is stored in a byte without loss. -/
theorem luminosity_byte (b g r : Nat) (hb : b ≤ 255) (hg : g ≤ 255) (hr : r ≤ 255) :
    toUint8 (toUint32 (2 * r + 3 * g + b) / 6) = (2 * r + 3 * g + b) / 6 ∧
      (2 * r + 3 * g + b) / 6 ≤ 255 := by
  have hs : 2 * r + 3 * g + b < 2 ^ 32 := by
    have : (2 : Nat) ^ 32 = 4294967296 := by norm_num
    omega
  have hq : (2 * r + 3 * g + b) / 6 ≤ 255 := by omega
  have hq' : (2 * r + 3 * g + b) / 6 < 2 ^ 8 := by
    have : (2 : Nat) ^ 8 = 256 := by norm_num
    omega
  exact ⟨by rw [toUint32, Nat.mod_eq_of_lt hs, toUint8, Nat.mod_eq_of_lt hq'], hq⟩

/-! ## Whole-buffer transforms -/

/-- C2: for every 4-byte pixel `(B,G,R,A)` of the buffer with channels in `0..255`,
`updateLuminance` returns, the alpha byte is afterwards `(2*R + 3*G + B) / 6` in integer
division, a value that fits one byte, and the B, G and R bytes are unchanged. -/
theorem updateLuminance_pixel_rule {R : Type} (c : CanvasImpl R) (k : Nat)
    (hk : 4 * k < c.byteCount)
    (hB : c.mem (c.data + 4 * k) ≤ 255) (hG : c.mem (c.data + 4 * k + 1) ≤ 255)
    (hR : c.mem (c.data + 4 * k + 2) ≤ 255) :
    ∃ c', c.updateLuminance = some c' ∧
      c'.mem (c.data + 4 * k + 3)
        = (2 * c.mem (c.data + 4 * k + 2) + 3 * c.mem (c.data + 4 * k + 1)
            + c.mem (c.data + 4 * k)) / 6 ∧
      c'.mem (c.data + 4 * k + 3) ≤ 255 ∧
      c'.mem (c.data + 4 * k) = c.mem (c.data + 4 * k) ∧
      c'.mem (c.data + 4 * k + 1) = c.mem (c.data + 4 * k + 1) ∧
      c'.mem (c.data + 4 * k + 2) = c.mem (c.data + 4 * k + 2) := by
  obtain ⟨m', hrun, hpix⟩ := updateLuminance_run c
  obtain ⟨h0, h1, h2, h3⟩ := hpix k hk
  refine ⟨_, hrun, ?_, ?_, h0, h1, h2⟩
  · show m' (c.data + 4 * k + 3) = _
    rw [h3]
    exact (luminosity_byte _ _ _ hB hG hR).1
  · show m' (c.data + 4 * k + 3) ≤ 255
    rw [h3, (luminosity_byte _ _ _ hB hG hR).1]
    exact (luminosity_byte _ _ _ hB hG hR).2

/-- Witness of C2 on the one-pixel canvas `(B,G,R,A) = (10, 20, 255, 7)`: the alpha
byte becomes `(2*255 + 3*20 + 10) / 6 = 96`. -/
theorem updateLuminance_pixel_rule_witness :
    (4 * 0 < (onePixel 10 20 255 7).byteCount ∧ (10 : Nat) ≤ 255 ∧ (20 : Nat) ≤ 255 ∧
      (255 : Nat) ≤ 255) ∧
    ∃ c', (onePixel 10 20 255 7).updateLuminance = some c' ∧
      c'.mem 3 = (2 * 255 + 3 * 20 + 10) / 6 ∧ c'.mem 3 ≤ 255 ∧
      c'.mem 0 = 10 ∧ c'.mem 1 = 20 ∧ c'.mem 2 = 255 :=
  ⟨by decide, updateLuminance_pixel_rule (onePixel 10 20 255 7) 0 (by decide) (by decide)
    (by decide) (by decide)⟩

/-- C1 (as stated) fails: on the pixel `(B,G,R,A) = (0, 0, 255, 1)` the quotient
`(R*255)/A` is `65025`, and `convertToRGBA` leaves `1` in byte 0 (the pixel becomes
`(1, 0, 0, 1)`). -/
theorem convertToRGBA_pixel_rule_counterexample :
    (onePixel 0 0 255 1).mem 3 ≠ 0 ∧
    (onePixel 0 0 255 1).mem 2 * 255 / (onePixel 0 0 255 1).mem 3 = 65025 ∧
    (onePixel 0 0 255 1).convertToRGBA.map (fun c' => (c'.mem 0, c'.mem 1, c'.mem 2, c'.mem 3))
      = some (1, 0, 0, 1) := by
  decide

/-- C1 (amended): for every 4-byte pixel `(B,G,R,A)` of the buffer, `convertToRGBA`
returns and afterwards, when `A ≠ 0`, bytes 0,1,2,3 are `(R*255)/A`, `(G*255)/A`,
`(B*255)/A` reduced modulo 256 and `A`, a channel `c ≤ A` giving exactly `(c*255)/A`;
when `A = 0` the four bytes are 0. -/
theorem convertToRGBA_pixel_rule {R : Type} (c : CanvasImpl R) (k : Nat)
    (hk : 4 * k < c.byteCount) :
    ∃ c', c.convertToRGBA = some c' ∧
      (c.mem (c.data + 4 * k + 3) ≠ 0 →
        c'.mem (c.data + 4 * k)
          = (c.mem (c.data + 4 * k + 2) * 255 / c.mem (c.data + 4 * k + 3)) % 256 ∧
        c'.mem (c.data + 4 * k + 1)
          = (c.mem (c.data + 4 * k + 1) * 255 / c.mem (c.data + 4 * k + 3)) % 256 ∧
        c'.mem (c.data + 4 * k + 2)
          = (c.mem (c.data + 4 * k) * 255 / c.mem (c.data + 4 * k + 3)) % 256 ∧
        c'.mem (c.data + 4 * k + 3) = c.mem (c.data + 4 * k + 3) ∧
        (c.mem (c.data + 4 * k + 2) ≤ c.mem (c.data + 4 * k + 3) →
          c'.mem (c.data + 4 * k)
            = c.mem (c.data + 4 * k + 2) * 255 / c.mem (c.data + 4 * k + 3)) ∧
        (c.mem (c.data + 4 * k + 1) ≤ c.mem (c.data + 4 * k + 3) →
          c'.mem (c.data + 4 * k + 1)
            = c.mem (c.data + 4 * k + 1) * 255 / c.mem (c.data + 4 * k + 3)) ∧
        (c.mem (c.data + 4 * k) ≤ c.mem (c.data + 4 * k + 3) →
          c'.mem (c.data + 4 * k + 2)
            = c.mem (c.data + 4 * k) * 255 / c.mem (c.data + 4 * k + 3))) ∧
      (c.mem (c.data + 4 * k + 3) = 0 →
        c'.mem (c.data + 4 * k) = 0 ∧ c'.mem (c.data + 4 * k + 1) = 0 ∧
        c'.mem (c.data + 4 * k + 2) = 0 ∧ c'.mem (c.data + 4 * k + 3) = 0) := by
  obtain ⟨m', hrun, hpix⟩ := convertToRGBA_run c
  obtain ⟨hnz, hz⟩ := hpix k hk
  refine ⟨_, hrun, fun ha => ?_, hz⟩
  obtain ⟨h0, h1, h2, h3⟩ := hnz ha
  have hfit : ∀ x, x ≤ c.mem (c.data + 4 * k + 3) →
      toUint8 (x * 255 / c.mem (c.data + 4 * k + 3)) = x * 255 / c.mem (c.data + 4 * k + 3) := by
    intro x hx
    have := unpremultiply_le x _ hx ha
    exact Nat.mod_eq_of_lt (by norm_num; omega)
  refine ⟨h0, h1, h2, h3, fun hR => ?_, fun hG => ?_, fun hB => ?_⟩
  · exact h0.trans (hfit _ hR)
  · exact h1.trans (hfit _ hG)
  · exact h2.trans (hfit _ hB)

/-- Witness of C1 (amended) on the one-pixel canvas `(B,G,R,A) = (10, 20, 30, 60)`. -/
theorem convertToRGBA_pixel_rule_witness :
    4 * 0 < (onePixel 10 20 30 60).byteCount ∧
    ∃ c', (onePixel 10 20 30 60).convertToRGBA = some c' ∧
      ((60 : Nat) ≠ 0 →
        c'.mem 0 = (30 * 255 / 60) % 256 ∧ c'.mem 1 = (20 * 255 / 60) % 256 ∧
        c'.mem 2 = (10 * 255 / 60) % 256 ∧ c'.mem 3 = 60 ∧
        ((30 : Nat) ≤ 60 → c'.mem 0 = 30 * 255 / 60) ∧
        ((20 : Nat) ≤ 60 → c'.mem 1 = 20 * 255 / 60) ∧
        ((10 : Nat) ≤ 60 → c'.mem 2 = 10 * 255 / 60)) ∧
      ((60 : Nat) = 0 → c'.mem 0 = 0 ∧ c'.mem 1 = 0 ∧ c'.mem 2 = 0 ∧ c'.mem 3 = 0) :=
  ⟨by decide, convertToRGBA_pixel_rule (onePixel 10 20 30 60) 0 (by decide)⟩

/-- C7 (as stated) fails: the one-pixel buffer `(B,G,R,A) = (0, 0, 255, 255)` satisfies
`R ≤ A`, `G ≤ A`, `B ≤ A`, and after `updateLuminance` the pixel is `(0, 0, 255, 85)`,
where `R ≤ A` no longer holds. -/
theorem updateLuminance_premultiplied_counterexample :
    ((onePixel 0 0 255 255).mem 2 ≤ (onePixel 0 0 255 255).mem 3 ∧
      (onePixel 0 0 255 255).mem 1 ≤ (onePixel 0 0 255 255).mem 3 ∧
      (onePixel 0 0 255 255).mem 0 ≤ (onePixel 0 0 255 255).mem 3) ∧
    (onePixel 0 0 255 255).updateLuminance.map
        (fun c' => (c'.mem 0, c'.mem 1, c'.mem 2, c'.mem 3)) = some (0, 0, 255, 85) ∧
    (onePixel 0 0 255 255).updateLuminance.map (fun c' => decide (c'.mem 2 ≤ c'.mem 3))
      = some false := by
  decide

/-- C7 (amended): for every pre-multiplied pixel `(B,G,R,A)` of the buffer (`R ≤ A`,
`G ≤ A`, `B ≤ A`, `A ≤ 255`), `updateLuminance` returns, leaves B, G, R unchanged and
replaces `A` by `(2*R + 3*G + B) / 6`; the new alpha is at most the old one, and the pixel
again satisfies `R ≤ A`, `G ≤ A`, `B ≤ A` exactly when `R = G = B`. -/
theorem updateLuminance_premultiplied {R : Type} (c : CanvasImpl R) (k : Nat)
    (hk : 4 * k < c.byteCount)
    (hR : c.mem (c.data + 4 * k + 2) ≤ c.mem (c.data + 4 * k + 3))
    (hG : c.mem (c.data + 4 * k + 1) ≤ c.mem (c.data + 4 * k + 3))
    (hB : c.mem (c.data + 4 * k) ≤ c.mem (c.data + 4 * k + 3))
    (hA : c.mem (c.data + 4 * k + 3) ≤ 255) :
    ∃ c', c.updateLuminance = some c' ∧
      c'.mem (c.data + 4 * k) = c.mem (c.data + 4 * k) ∧
      c'.mem (c.data + 4 * k + 1) = c.mem (c.data + 4 * k + 1) ∧
      c'.mem (c.data + 4 * k + 2) = c.mem (c.data + 4 * k + 2) ∧
      c'.mem (c.data + 4 * k + 3)
        = (2 * c.mem (c.data + 4 * k + 2) + 3 * c.mem (c.data + 4 * k + 1)
            + c.mem (c.data + 4 * k)) / 6 ∧
      c'.mem (c.data + 4 * k + 3) ≤ c.mem (c.data + 4 * k + 3) ∧
      ((c'.mem (c.data + 4 * k + 2) ≤ c'.mem (c.data + 4 * k + 3) ∧
          c'.mem (c.data + 4 * k + 1) ≤ c'.mem (c.data + 4 * k + 3) ∧
          c'.mem (c.data + 4 * k) ≤ c'.mem (c.data + 4 * k + 3)) ↔
        (c.mem (c.data + 4 * k + 2) = c.mem (c.data + 4 * k + 1) ∧
          c.mem (c.data + 4 * k + 1) = c.mem (c.data + 4 * k))) := by
  obtain ⟨m', hrun, hpix⟩ := updateLuminance_run c
  obtain ⟨h0, h1, h2, h3⟩ := hpix k hk
  have hlum := (luminosity_byte _ _ _ (hB.trans hA) (hG.trans hA) (hR.trans hA)).1
  rw [hlum] at h3
  refine ⟨_, hrun, h0, h1, h2, h3, ?_, ?_⟩
  · show m' (c.data + 4 * k + 3) ≤ _
    rw [h3]
    omega
  · show (m' (c.data + 4 * k + 2) ≤ m' (c.data + 4 * k + 3) ∧
      m' (c.data + 4 * k + 1) ≤ m' (c.data + 4 * k + 3) ∧
      m' (c.data + 4 * k) ≤ m' (c.data + 4 * k + 3)) ↔ _
    rw [h0, h1, h2, h3]
    constructor
    · rintro ⟨a1, a2, a3⟩
      constructor <;> omega
    · rintro ⟨e1, e2⟩
      rw [e1, e2]
      refine ⟨?_, ?_, ?_⟩ <;> omega

/-- Witness of C7 (amended) on the grey one-pixel canvas `(B,G,R,A) = (40, 40, 40, 200)`. -/
theorem updateLuminance_premultiplied_witness :
    (4 * 0 < (onePixel 40 40 40 200).byteCount ∧ (40 : Nat) ≤ 200 ∧ (200 : Nat) ≤ 255) ∧
    ∃ c', (onePixel 40 40 40 200).updateLuminance = some c' ∧
      c'.mem 0 = 40 ∧ c'.mem 1 = 40 ∧ c'.mem 2 = 40 ∧
      c'.mem 3 = (2 * 40 + 3 * 40 + 40) / 6 ∧ c'.mem 3 ≤ 200 ∧
      ((c'.mem 2 ≤ c'.mem 3 ∧ c'.mem 1 ≤ c'.mem 3 ∧ c'.mem 0 ≤ c'.mem 3) ↔
        ((40 : Nat) = 40 ∧ (40 : Nat) = 40)) :=
  ⟨by decide, updateLuminance_premultiplied (onePixel 40 40 40 200) 0 (by decide) (by decide)
    (by decide) (by decide) (by decide)⟩

/-- C8: for every pre-multiplied pixel `(B,G,R,A)` of the buffer (each of B, G, R at most
`A`, `A ≤ 255`), `convertToRGBA` returns with bytes `(R',G',B',A)`; the alpha byte is
unchanged and each re-premultiplied channel `c' * A / 255` lies in `[c - 1, c]` for the
original channel `c` (R for byte 0, G for byte 1, B for byte 2); for `A = 0` the result is
the all-zero pixel, the original one. -/
theorem convertToRGBA_roundtrip {R : Type} (c : CanvasImpl R) (k : Nat)
    (hk : 4 * k < c.byteCount)
    (hR : c.mem (c.data + 4 * k + 2) ≤ c.mem (c.data + 4 * k + 3))
    (hG : c.mem (c.data + 4 * k + 1) ≤ c.mem (c.data + 4 * k + 3))
    (hB : c.mem (c.data + 4 * k) ≤ c.mem (c.data + 4 * k + 3))
    (hA : c.mem (c.data + 4 * k + 3) ≤ 255) :
    ∃ c', c.convertToRGBA = some c' ∧
      c'.mem (c.data + 4 * k + 3) = c.mem (c.data + 4 * k + 3) ∧
      (c'.mem (c.data + 4 * k) * c'.mem (c.data + 4 * k + 3) / 255
          ≤ c.mem (c.data + 4 * k + 2) ∧
        c.mem (c.data + 4 * k + 2)
          ≤ c'.mem (c.data + 4 * k) * c'.mem (c.data + 4 * k + 3) / 255 + 1) ∧
      (c'.mem (c.data + 4 * k + 1) * c'.mem (c.data + 4 * k + 3) / 255
          ≤ c.mem (c.data + 4 * k + 1) ∧
        c.mem (c.data + 4 * k + 1)
          ≤ c'.mem (c.data + 4 * k + 1) * c'.mem (c.data + 4 * k + 3) / 255 + 1) ∧
      (c'.mem (c.data + 4 * k + 2) * c'.mem (c.data + 4 * k + 3) / 255
          ≤ c.mem (c.data + 4 * k) ∧
        c.mem (c.data + 4 * k)
          ≤ c'.mem (c.data + 4 * k + 2) * c'.mem (c.data + 4 * k + 3) / 255 + 1) ∧
      (c.mem (c.data + 4 * k + 3) = 0 →
        c'.mem (c.data + 4 * k) = c.mem (c.data + 4 * k + 2) ∧
        c'.mem (c.data + 4 * k + 1) = c.mem (c.data + 4 * k + 1) ∧
        c'.mem (c.data + 4 * k + 2) = c.mem (c.data + 4 * k) ∧
        c'.mem (c.data + 4 * k) = 0 ∧ c'.mem (c.data + 4 * k + 1) = 0 ∧
        c'.mem (c.data + 4 * k + 2) = 0 ∧ c'.mem (c.data + 4 * k + 3) = 0) := by
  obtain ⟨m', hrun, hpix⟩ := convertToRGBA_run c
  obtain ⟨hnz, hz⟩ := hpix k hk
  refine ⟨_, hrun, ?_⟩
  show m' (c.data + 4 * k + 3) = _ ∧
    (m' (c.data + 4 * k) * m' (c.data + 4 * k + 3) / 255 ≤ _ ∧
      _ ≤ m' (c.data + 4 * k) * m' (c.data + 4 * k + 3) / 255 + 1) ∧
    (m' (c.data + 4 * k + 1) * m' (c.data + 4 * k + 3) / 255 ≤ _ ∧
      _ ≤ m' (c.data + 4 * k + 1) * m' (c.data + 4 * k + 3) / 255 + 1) ∧
    (m' (c.data + 4 * k + 2) * m' (c.data + 4 * k + 3) / 255 ≤ _ ∧
      _ ≤ m' (c.data + 4 * k + 2) * m' (c.data + 4 * k + 3) / 255 + 1) ∧
    (_ → m' (c.data + 4 * k) = _ ∧ m' (c.data + 4 * k + 1) = _ ∧ m' (c.data + 4 * k + 2) = _ ∧
      m' (c.data + 4 * k) = 0 ∧ m' (c.data + 4 * k + 1) = 0 ∧ m' (c.data + 4 * k + 2) = 0 ∧
      m' (c.data + 4 * k + 3) = 0)
  by_cases ha : c.mem (c.data + 4 * k + 3) = 0
  · obtain ⟨z0, z1, z2, z3⟩ := hz ha
    rw [ha] at hR hG hB
    rw [z0, z1, z2, z3, ha]
    refine ⟨rfl, ?_, ?_, ?_, fun _ => ?_⟩ <;> simp <;> omega
  · obtain ⟨h0, h1, h2, h3⟩ := hnz ha
    have hfit : ∀ x, x ≤ c.mem (c.data + 4 * k + 3) →
        toUint8 (x * 255 / c.mem (c.data + 4 * k + 3))
          = x * 255 / c.mem (c.data + 4 * k + 3) := by
      intro x hx
      have := unpremultiply_le x _ hx ha
      exact Nat.mod_eq_of_lt (by norm_num; omega)
    rw [h0, h1, h2, h3, hfit _ hR, hfit _ hG, hfit _ hB]
    exact ⟨rfl, roundtrip_channel _ _ hA ha, roundtrip_channel _ _ hA ha,
      roundtrip_channel _ _ hA ha, fun h => absurd h ha⟩

/-- Witness of C8 on the one-pixel canvas `(B,G,R,A) = (10, 20, 30, 60)`. -/
theorem convertToRGBA_roundtrip_witness :
    (4 * 0 < (onePixel 10 20 30 60).byteCount ∧ (30 : Nat) ≤ 60 ∧ (20 : Nat) ≤ 60 ∧
      (10 : Nat) ≤ 60 ∧ (60 : Nat) ≤ 255) ∧
    ∃ c', (onePixel 10 20 30 60).convertToRGBA = some c' ∧
      c'.mem 3 = 60 ∧
      (c'.mem 0 * c'.mem 3 / 255 ≤ 30 ∧ 30 ≤ c'.mem 0 * c'.mem 3 / 255 + 1) ∧
      (c'.mem 1 * c'.mem 3 / 255 ≤ 20 ∧ 20 ≤ c'.mem 1 * c'.mem 3 / 255 + 1) ∧
      (c'.mem 2 * c'.mem 3 / 255 ≤ 10 ∧ 10 ≤ c'.mem 2 * c'.mem 3 / 255 + 1) ∧
      ((60 : Nat) = 0 →
        c'.mem 0 = 30 ∧ c'.mem 1 = 20 ∧ c'.mem 2 = 10 ∧
        c'.mem 0 = 0 ∧ c'.mem 1 = 0 ∧ c'.mem 2 = 0 ∧ c'.mem 3 = 0) :=
  ⟨by decide, convertToRGBA_roundtrip (onePixel 10 20 30 60) 0 (by decide) (by decide)
    (by decide) (by decide) (by decide)⟩

/-! ## Gradient spread -/

/-- The truncating remainder by a positive divisor is above the negated divisor. -/
theorem neg_lt_tmod (a b : Int) (hb : 0 < b) : -b < a.tmod b := by
  obtain ⟨n, rfl⟩ := Int.eq_ofNat_of_zero_le hb.le
  cases a with
  | ofNat m =>
    have h : 0 ≤ (Int.ofNat m).tmod (n : Int) := Int.tmod_nonneg (n : Int) (Int.ofNat_nonneg m)
    omega
  | negSucc m =>
    have e : Int.tmod (Int.negSucc m) (n : Int) = -(((m + 1) % n : Nat) : Int) := rfl
    have hn : 0 < n := by omega
    have := Nat.mod_lt (m + 1) hn
    rw [e]
    omega

/-- A value that differs from `r` in `[0, E)` by a multiple of `E` has Euclidean
remainder `r`. -/
theorem emod_unique (a E r k : Int) (h : a = r + E * k) (h0 : 0 ≤ r) (h1 : r < E) :
    a % E = r := by
  rw [h, Int.add_mul_emod_self_left, Int.emod_eq_of_lt h0 h1]

/-- The C++ idiom `ret = v % D; if(ret < 0) ret += D;` computes the Euclidean remainder. -/
theorem tmod_adjust (v D : Int) (hD : 0 < D) :
    (if v.tmod D < 0 then v.tmod D + D else v.tmod D) = v % D := by
  have hup := Int.tmod_lt_of_pos v hD
  have hlo := neg_lt_tmod v D hD
  have hv := Int.tmod_add_tdiv v D
  split
  · next hneg =>
    have e : v = v.tmod D + D + D * (v.tdiv D - 1) := by
      rw [Int.mul_sub, Int.mul_one]
      omega
    exact (emod_unique v D (v.tmod D + D) (v.tdiv D - 1) e (by omega) (by omega)).symm
  · next hpos =>
    exact (emod_unique v D (v.tmod D) (v.tdiv D) (by omega) (by omega) hup).symm

theorem checkInt_of_mem (x : Int) (h0 : INT_MIN ≤ x) (h1 : x ≤ INT_MAX) :
    checkInt x = some x := by
  simp [checkInt, h0, h1]

theorem intRem_of_pos (a b : Int) (hb : 0 < b) : intRem a b = some (a.tmod b) := by
  have h1 : b ≠ 0 := by omega
  have h2 : b ≠ -1 := by omega
  simp [intRem, h1, h2]

theorem calculate_repeat (g : Int → Int → Int → Int) (x y D : Int) (hD : 0 < D)
    (hmax : D ≤ INT_MAX) :
    GradientWrapper.calculate g SpreadMethod.SpreadMethodRepeat x y D
      = some (g x y D % D) := by
  have hup := Int.tmod_lt_of_pos (g x y D) hD
  have hlo := neg_lt_tmod (g x y D) D hD
  have hadj := tmod_adjust (g x y D) D hD
  have hmin : INT_MIN ≤ 0 := by decide
  simp only [GradientWrapper.calculate, intRem_of_pos _ _ hD, Option.bind_eq_bind,
    Option.some_bind, Option.pure_def]
  split
  · next hneg =>
    rw [if_pos hneg] at hadj
    rw [checkInt_of_mem _ (by omega) (by omega), Option.some_bind, hadj]
  · next hpos =>
    rw [if_neg hpos] at hadj
    rw [hadj]

theorem calculate_reflect (g : Int → Int → Int → Int) (x y D : Int) (hD : 0 < D)
    (h2 : 2 * D ≤ INT_MAX) :
    GradientWrapper.calculate g SpreadMethod.SpreadMethodReflect x y D
      = some (if g x y D % (2 * D) < D then g x y D % (2 * D)
          else 2 * D - g x y D % (2 * D)) := by
  have hD2 : 0 < D * 2 := by omega
  have hup := Int.tmod_lt_of_pos (g x y D) hD2
  have hlo := neg_lt_tmod (g x y D) (D * 2) hD2
  have hadj := tmod_adjust (g x y D) (D * 2) hD2
  have hmin : INT_MIN ≤ 0 := by decide
  have e2 : 2 * D = D * 2 := Int.mul_comm 2 D
  have hm0 := Int.emod_nonneg (g x y D) (by omega : D * 2 ≠ 0)
  have hm1 := Int.emod_lt_of_pos (g x y D) hD2
  simp only [GradientWrapper.calculate, checkInt_of_mem (D * 2) (by omega) (by omega),
    intRem_of_pos _ _ hD2, Option.bind_eq_bind, Option.some_bind, Option.pure_def, e2]
  have hfin : (if g x y D % (D * 2) ≥ D then
        (checkInt (D * 2 - g x y D % (D * 2))).bind fun r => some r
      else some (g x y D % (D * 2)))
      = some (if g x y D % (D * 2) < D then g x y D % (D * 2)
          else D * 2 - g x y D % (D * 2)) := by
    split
    · next hge =>
      rw [checkInt_of_mem _ (by omega) (by omega), Option.some_bind, if_neg (by omega)]
    · next hlt =>
      rw [if_pos (by omega)]
  split
  · next hneg =>
    rw [if_pos hneg] at hadj
    rw [checkInt_of_mem _ (by omega) (by omega), Option.some_bind, hadj]
    exact hfin
  · next hpos =>
    rw [if_neg hpos] at hadj
    rw [hadj]
    exact hfin

theorem calculate_reflect_overflow (g : Int → Int → Int → Int) (x y D : Int)
    (h2 : INT_MAX < 2 * D) :
    GradientWrapper.calculate g SpreadMethod.SpreadMethodReflect x y D = none := by
  have h : checkInt (D * 2) = none := by
    have : ¬ (D * 2 ≤ INT_MAX) := by omega
    simp [checkInt, this]
  simp [GradientWrapper.calculate, h]

/-- The specification's `((v mod E) + E) mod E` with the Euclidean remainder. -/
theorem spec_mod_emod (v E : Int) : Int.emod (Int.emod v E + E) E = v % E := by
  show (v % E + E) % E = v % E
  rw [Int.add_emod_self, Int.emod_emod]

/-- The specification's `((v mod E) + E) mod E` with the truncating remainder of C++. -/
theorem spec_mod_tmod (v E : Int) (hE : 0 < E) : Int.tmod (Int.tmod v E + E) E = v % E := by
  have hup := Int.tmod_lt_of_pos v hE
  have hlo := neg_lt_tmod v E hE
  have hadj := tmod_adjust v E hE
  by_cases hneg : v.tmod E < 0
  · rw [if_pos hneg] at hadj
    rw [Int.tmod_eq_of_lt (by omega) (by omega), hadj]
  · rw [if_neg hneg] at hadj
    rw [Int.tmod_eq_emod (by omega) (by omega), Int.add_emod_self,
      Int.emod_eq_of_lt (by omega) hup, hadj]

theorem reflect_value_sym (v D : Int) (hD : 0 < D) :
    (if (2 * D - v) % (2 * D) < D then (2 * D - v) % (2 * D)
      else 2 * D - (2 * D - v) % (2 * D))
    = (if v % (2 * D) < D then v % (2 * D) else 2 * D - v % (2 * D)) := by
  have hv := Int.emod_add_ediv v (2 * D)
  have hm0 := Int.emod_nonneg v (by omega : 2 * D ≠ 0)
  have hm1 := Int.emod_lt_of_pos v (by omega : 0 < 2 * D)
  by_cases hm : v % (2 * D) = 0
  · have e : (2 * D - v) % (2 * D) = 0 :=
      emod_unique _ _ 0 (1 - v / (2 * D)) (by rw [Int.mul_sub, Int.mul_one]; omega)
        (by omega) (by omega)
    rw [e, hm]
  · have e : (2 * D - v) % (2 * D) = 2 * D - v % (2 * D) :=
      emod_unique _ _ _ (-(v / (2 * D))) (by rw [Int.mul_neg]; omega) (by omega) (by omega)
    rw [e]
    split_ifs <;> omega

/-- C3: for every value `v` returned by the gradient function and every `D > 0` with `2*D`
representable as `int`, `GradientWrapper::calculate` returns the value of the spread table
of the specification (Pad `clamp(v,0,D)`, Repeat `((v mod D) + D) mod D`, Reflect `m < D ? m
: 2D - m` with `m = ((v mod 2D) + 2D) mod 2D`), and the table reads the same with the
Euclidean and with the truncating remainder of C++, negative `v` included. -/
theorem calculate_spread_table (m_gradient : Int → Int → Int → Int) (spread : SpreadMethod)
    (x y D : Int) (hD : 0 < D) (h2 : 2 * D ≤ INT_MAX) :
    GradientWrapper.calculate m_gradient spread x y D
      = some (spreadSpec Int.emod spread (m_gradient x y D) D) ∧
    spreadSpec Int.tmod spread (m_gradient x y D) D
      = spreadSpec Int.emod spread (m_gradient x y D) D := by
  cases spread with
  | SpreadMethodPad =>
    refine ⟨?_, rfl⟩
    simp only [GradientWrapper.calculate, spreadSpec, clamp]
    split_ifs with h1 h2
    · rw [max_eq_left (by rw [min_eq_left (by omega)]; omega)]
    · rw [min_eq_right (by omega), max_eq_right (by omega)]
    · rw [min_eq_left (by omega), max_eq_right (by omega)]
  | SpreadMethodRepeat =>
    refine ⟨?_, ?_⟩
    · rw [calculate_repeat _ _ _ _ hD (by omega)]
      simp only [spreadSpec]
      rw [spec_mod_emod]
    · simp only [spreadSpec]
      rw [spec_mod_emod, spec_mod_tmod _ _ hD]
  | SpreadMethodReflect =>
    refine ⟨?_, ?_⟩
    · rw [calculate_reflect _ _ _ _ hD h2]
      simp only [spreadSpec]
      rw [spec_mod_emod]
    · simp only [spreadSpec]
      rw [spec_mod_emod, spec_mod_tmod _ _ (by omega)]

/-- Witness of C3: the gradient `gradient_x` at `x = -30` with `D = 100`, Reflect spread. -/
theorem calculate_spread_table_witness :
    ((0 : Int) < 100 ∧ 2 * 100 ≤ INT_MAX) ∧
    GradientWrapper.calculate gradient_x SpreadMethod.SpreadMethodReflect (-30) 0 100
      = some (spreadSpec Int.emod SpreadMethod.SpreadMethodReflect (gradient_x (-30) 0 100) 100) ∧
    spreadSpec Int.tmod SpreadMethod.SpreadMethodReflect (gradient_x (-30) 0 100) 100
      = spreadSpec Int.emod SpreadMethod.SpreadMethodReflect (gradient_x (-30) 0 100) 100 :=
  ⟨by decide, calculate_spread_table gradient_x SpreadMethod.SpreadMethodReflect (-30) 0 100
    (by decide) (by decide)⟩

/-- C9: for every `D > 0` and every gradient parameter `v`, `GradientWrapper::calculate`
with `SpreadMethodReflect` gives the same result at a point whose parameter is `2D - v` and
at a point whose parameter is `v + 2D` as at the point of parameter `v`; the result is
undefined exactly when `2D` is not representable as `int`. -/
theorem calculate_reflect_symmetry (m_gradient : Int → Int → Int → Int)
    (x y x1 y1 x2 y2 D : Int) (hD : 0 < D)
    (hsym : m_gradient x1 y1 D = 2 * D - m_gradient x y D)
    (hper : m_gradient x2 y2 D = m_gradient x y D + 2 * D) :
    GradientWrapper.calculate m_gradient SpreadMethod.SpreadMethodReflect x y D
      = GradientWrapper.calculate m_gradient SpreadMethod.SpreadMethodReflect x1 y1 D ∧
    GradientWrapper.calculate m_gradient SpreadMethod.SpreadMethodReflect x y D
      = GradientWrapper.calculate m_gradient SpreadMethod.SpreadMethodReflect x2 y2 D ∧
    (GradientWrapper.calculate m_gradient SpreadMethod.SpreadMethodReflect x y D = none
      ↔ INT_MAX < 2 * D) := by
  by_cases h2 : 2 * D ≤ INT_MAX
  · rw [calculate_reflect _ x y _ hD h2, calculate_reflect _ x1 y1 _ hD h2,
      calculate_reflect _ x2 y2 _ hD h2, hsym, hper, reflect_value_sym _ _ hD,
      Int.add_emod_self]
    refine ⟨rfl, rfl, ?_⟩
    constructor
    · intro h
      cases h
    · intro h
      omega
  · have h2' : INT_MAX < 2 * D := by omega
    rw [calculate_reflect_overflow _ x y _ h2', calculate_reflect_overflow _ x1 y1 _ h2',
      calculate_reflect_overflow _ x2 y2 _ h2']
    exact ⟨rfl, rfl, fun _ => h2', fun _ => rfl⟩

/-- Witness of C9: `gradient_x` with `D = 100` at `x = 30`, `x = 170 = 2D - 30` and
`x = 230 = 30 + 2D`. -/
theorem calculate_reflect_symmetry_witness :
    ((0 : Int) < 100 ∧ gradient_x 170 0 100 = 2 * 100 - gradient_x 30 0 100 ∧
      gradient_x 230 0 100 = gradient_x 30 0 100 + 2 * 100) ∧
    GradientWrapper.calculate gradient_x SpreadMethod.SpreadMethodReflect 30 0 100
      = GradientWrapper.calculate gradient_x SpreadMethod.SpreadMethodReflect 170 0 100 ∧
    GradientWrapper.calculate gradient_x SpreadMethod.SpreadMethodReflect 30 0 100
      = GradientWrapper.calculate gradient_x SpreadMethod.SpreadMethodReflect 230 0 100 ∧
    (GradientWrapper.calculate gradient_x SpreadMethod.SpreadMethodReflect 30 0 100 = none
      ↔ INT_MAX < 2 * 100) :=
  ⟨by decide, calculate_reflect_symmetry gradient_x 30 0 170 0 230 0 100 (by decide)
    (by decide) (by decide)⟩

/-! ## Conversions of `double` -/

theorem doubleToUint8_of_nonneg (x : Double) (h0 : 0 ≤ x) (h1 : x < 256) :
    doubleToUint8 x = some ⌊x⌋.toNat ∧ ⌊x⌋.toNat ≤ 255 := by
  have hf0 : 0 ≤ ⌊x⌋ := Int.floor_nonneg.mpr h0
  have hf1 : ⌊x⌋ < 256 := Int.floor_lt.mpr (by exact_mod_cast h1)
  have hle : ⌊x⌋ ≤ 255 := by omega
  refine ⟨?_, by omega⟩
  simp [doubleToUint8, truncate, h0, hf0, hle]

theorem doubleToUint8_eq_none_iff (x : Double) :
    doubleToUint8 x = none ↔ x ≤ -1 ∨ 256 ≤ x := by
  by_cases h0 : 0 ≤ x
  · have hf0 : 0 ≤ ⌊x⌋ := Int.floor_nonneg.mpr h0
    have hiff : ⌊x⌋ ≤ 255 ↔ x < 256 := by
      rw [← Int.lt_add_one_iff, Int.floor_lt]
      norm_num
    simp only [doubleToUint8, truncate, h0, if_true, hf0, true_and]
    constructor
    · intro h
      right
      by_contra hx
      rw [if_pos (hiff.mpr (not_le.mp hx))] at h
      cases h
    · intro h
      rcases h with h | h
      · linarith
      · rw [if_neg (fun hle => absurd (hiff.mp hle) (not_lt.mpr h))]
  · have hx : x < 0 := not_le.mp h0
    have hc1 : ⌈x⌉ ≤ 0 := Int.ceil_le.mpr (by exact_mod_cast hx.le)
    have hiff : 0 ≤ ⌈x⌉ ↔ -1 < x := by
      rw [← Int.sub_one_lt_iff, Int.lt_ceil]
      norm_num
    simp only [doubleToUint8, truncate, h0, if_false]
    constructor
    · intro h
      left
      by_contra hx1
      rw [if_pos ⟨hiff.mpr (not_le.mp hx1), by omega⟩] at h
      cases h
    · intro h
      rcases h with h | h
      · rw [if_neg (fun hc => absurd (hiff.mp hc.1) (not_lt.mpr h))]
      · linarith

theorem roundHalfEven_le (y : ℚ) (m : Int) (h : y ≤ m) : roundHalfEven y ≤ m := by
  have hf : ⌊y⌋ ≤ m := by
    have := Int.floor_le y
    exact_mod_cast this.trans h
  rcases eq_or_lt_of_le hf with he | hl
  · have hr : y - (⌊y⌋ : ℚ) < 1 / 2 := by
      rw [he]
      linarith
    simp only [roundHalfEven, hr, if_true]
    exact hf
  · simp only [roundHalfEven]
    split_ifs <;> omega

theorem le_roundHalfEven (y : ℚ) (m : Int) (h : (m : ℚ) ≤ y) : m ≤ roundHalfEven y := by
  have hf : m ≤ ⌊y⌋ := Int.le_floor.mpr h
  simp only [roundHalfEven]
  split_ifs <;> omega

/-- The unit in the last place of a value whose magnitude lies in `[2^e, 2^(e+1))`. -/
theorem ulpExponent_eq (x : ℚ) (e : Int) (h1 : (2 : ℚ) ^ e ≤ |x|)
    (h2 : |x| < (2 : ℚ) ^ (e + 1)) (he : -1022 ≤ e) : ulpExponent x = e - 52 := by
  have hpos : 0 < |x| := lt_of_lt_of_le (by positivity) h1
  have hlog : Int.log 2 |x| = e := by
    apply le_antisymm
    · have := (Int.lt_zpow_iff_log_lt (b := 2) (by norm_num) hpos (x := e + 1)).mp
        (by exact_mod_cast h2)
      omega
    · exact (Int.zpow_le_iff_le_log (b := 2) (by norm_num) hpos).mp (by exact_mod_cast h1)
  simp only [ulpExponent, hlog]
  omega

theorem ulpExponent_le (x : ℚ) (hx : |x| < 256) : ulpExponent x ≤ -45 := by
  have hlog : Int.log 2 |x| < 8 := by
    rcases eq_or_lt_of_le (abs_nonneg x) with h0 | hpos
    · rw [← h0, Int.log_of_right_le_zero 2 le_rfl]
      norm_num
    · exact (Int.lt_zpow_iff_log_lt (b := 2) (by norm_num) hpos).mp (by norm_num; exact hx)
  simp only [ulpExponent]
  omega

/-- Below 256 the unit in the last place is the inverse of a positive integer, a power
of two: every integer is then a multiple of it. -/
theorem ulp_scale (x : ℚ) (hx : |x| < 256) :
    ∃ N : Int, 0 < N ∧ ∀ y : ℚ, y / (2 : ℚ) ^ ulpExponent x = y * N ∧
      (N : ℚ) * (2 : ℚ) ^ ulpExponent x = 1 := by
  have hle := ulpExponent_le x hx
  obtain ⟨k, hk⟩ : ∃ k : Nat, ulpExponent x = -(k : Int) := ⟨(-ulpExponent x).toNat, by omega⟩
  refine ⟨2 ^ k, by positivity, fun y => ?_⟩
  rw [hk, zpow_neg, zpow_natCast]
  push_cast
  constructor
  · field_simp
  · field_simp

/-- Rounding to binary64 does not cross an integer from below: `x ≤ n` gives
`roundToDouble x ≤ n` (for `|x| < 256`, where every integer is a binary64 value). -/
theorem roundToDouble_le (x : ℚ) (n : Int) (hx : |x| < 256) (h : x ≤ n) :
    roundToDouble x ≤ n := by
  obtain ⟨N, hN, hs⟩ := ulp_scale x hx
  have hNq : (0 : ℚ) < N := by exact_mod_cast hN
  have h1 : roundHalfEven (x * N) ≤ n * N :=
    roundHalfEven_le _ _ (by push_cast; exact mul_le_mul_of_nonneg_right h hNq.le)
  have h2 : ((roundHalfEven (x * N) : Int) : ℚ) ≤ (n : ℚ) * N := by exact_mod_cast h1
  have hp : (0 : ℚ) < (2 : ℚ) ^ ulpExponent x := by positivity
  rw [roundToDouble, (hs x).1]
  calc ((roundHalfEven (x * N) : Int) : ℚ) * (2 : ℚ) ^ ulpExponent x
      ≤ (n : ℚ) * N * (2 : ℚ) ^ ulpExponent x := mul_le_mul_of_nonneg_right h2 hp.le
    _ = n := by rw [mul_assoc, (hs x).2, mul_one]

/-- Rounding to binary64 does not cross an integer from above. -/
theorem le_roundToDouble (x : ℚ) (n : Int) (hx : |x| < 256) (h : (n : ℚ) ≤ x) :
    (n : ℚ) ≤ roundToDouble x := by
  obtain ⟨N, hN, hs⟩ := ulp_scale x hx
  have hNq : (0 : ℚ) < N := by exact_mod_cast hN
  have h1 : n * N ≤ roundHalfEven (x * N) :=
    le_roundHalfEven _ _ (by push_cast; exact mul_le_mul_of_nonneg_right h hNq.le)
  have h2 : (n : ℚ) * N ≤ ((roundHalfEven (x * N) : Int) : ℚ) := by exact_mod_cast h1
  have hp : (0 : ℚ) < (2 : ℚ) ^ ulpExponent x := by positivity
  rw [roundToDouble, (hs x).1]
  calc (n : ℚ) = (n : ℚ) * N * (2 : ℚ) ^ ulpExponent x := by rw [mul_assoc, (hs x).2, mul_one]
    _ ≤ ((roundHalfEven (x * N) : Int) : ℚ) * (2 : ℚ) ^ ulpExponent x :=
      mul_le_mul_of_nonneg_right h2 hp.le

theorem roundHalfEven_error (y : ℚ) : |(roundHalfEven y : ℚ) - y| ≤ 1 / 2 := by
  have hf1 : (⌊y⌋ : ℚ) ≤ y := Int.floor_le y
  have hf2 : y < ⌊y⌋ + 1 := Int.lt_floor_add_one y
  simp only [roundHalfEven]
  split_ifs with h1 h2 h3 <;> rw [abs_le] <;> push_cast <;> constructor <;> linarith

/-- Below 256 the rounding to binary64 moves a value by at most half a unit in the last
place, which is at most `2^-46`. -/
theorem roundToDouble_error (x : ℚ) (hx : |x| < 256) :
    |roundToDouble x - x| ≤ 1 / 2 ^ 46 := by
  have hp : (0 : ℚ) < (2 : ℚ) ^ ulpExponent x := by positivity
  have hle : (2 : ℚ) ^ ulpExponent x ≤ (2 : ℚ) ^ (-45 : Int) :=
    zpow_le_zpow_right₀ (by norm_num) (ulpExponent_le x hx)
  have hval : (2 : ℚ) ^ (-45 : Int) = 1 / 2 ^ 45 := by
    rw [zpow_neg]
    norm_num
  have hr := roundHalfEven_error (x / (2 : ℚ) ^ ulpExponent x)
  have e : roundToDouble x - x
      = ((roundHalfEven (x / (2 : ℚ) ^ ulpExponent x) : ℚ) - x / (2 : ℚ) ^ ulpExponent x)
          * (2 : ℚ) ^ ulpExponent x := by
    rw [roundToDouble, sub_mul, div_mul_cancel₀ _ hp.ne']
  rw [e, abs_mul, abs_of_pos hp]
  calc |(roundHalfEven (x / (2 : ℚ) ^ ulpExponent x) : ℚ) - x / (2 : ℚ) ^ ulpExponent x|
        * (2 : ℚ) ^ ulpExponent x
      ≤ 1 / 2 * (1 / 2 ^ 45) := by
        rw [← hval]
        exact mul_le_mul hr hle hp.le (by norm_num)
    _ = 1 / 2 ^ 46 := by norm_num

/-- A product in `[0, 255]`, rounded and then truncated, is a byte between the floor and
the ceiling of the exact product; the rounding moves the product by at most `2^-46`. -/
theorem truncated_product (x : ℚ) (h0 : 0 ≤ x) (h1 : x ≤ 255) :
    doubleToUint8 (roundToDouble x) = some ⌊roundToDouble x⌋.toNat ∧
      ⌊x⌋ ≤ ⌊roundToDouble x⌋ ∧ ⌊roundToDouble x⌋ ≤ ⌈x⌉ ∧ ⌊roundToDouble x⌋.toNat ≤ 255 ∧
      |roundToDouble x - x| ≤ 1 / 2 ^ 46 := by
  have hx : |x| < 256 := by
    rw [abs_of_nonneg h0]
    linarith
  have hr0 : (0 : ℚ) ≤ roundToDouble x := by
    have := le_roundToDouble x 0 hx (by exact_mod_cast h0)
    exact_mod_cast this
  have hr1 : roundToDouble x ≤ 255 := by
    have := roundToDouble_le x 255 hx (by exact_mod_cast h1)
    exact_mod_cast this
  have hlo : ⌊x⌋ ≤ ⌊roundToDouble x⌋ :=
    Int.le_floor.mpr (le_roundToDouble x ⌊x⌋ hx (Int.floor_le x))
  have hhi : ⌊roundToDouble x⌋ ≤ ⌈x⌉ := by
    have hc := roundToDouble_le x ⌈x⌉ hx (Int.le_ceil x)
    have hf := Int.floor_le (roundToDouble x)
    exact_mod_cast hf.trans hc
  obtain ⟨hc, hb⟩ := doubleToUint8_of_nonneg (roundToDouble x) hr0 (by linarith)
  exact ⟨hc, hlo, hhi, hb, roundToDouble_error x hx⟩

/-- The product `0.5 * 255` is exact: `127.5`. -/
theorem mulDouble_half : mulDouble (1 / 2) 255 = 255 / 2 := by
  have hu : ulpExponent ((1 / 2 : ℚ) * 255) = 6 - 52 :=
    ulpExponent_eq _ 6 (by norm_num [abs_of_pos]) (by norm_num [abs_of_pos]) (by norm_num)
  rw [mulDouble, roundToDouble, hu]
  norm_num [roundHalfEven]

/-- The product `2 * 255` is exact: `510`. -/
theorem mulDouble_two : mulDouble 2 255 = 510 := by
  have hu : ulpExponent ((2 : ℚ) * 255) = 8 - 52 :=
    ulpExponent_eq _ 8 (by norm_num [abs_of_pos]) (by norm_num [abs_of_pos]) (by norm_num)
  rw [mulDouble, roundToDouble, hu]
  norm_num [roundHalfEven]

/-- The double nearest `0.6` is `5404319552844595 / 2^53`, below `0.6`; its product with
`255` rounds up to `153`. -/
theorem mulDouble_six_tenths : mulDouble (5404319552844595 / 2 ^ 53) 255 = 153 := by
  have hu : ulpExponent ((5404319552844595 / 2 ^ 53 : ℚ) * 255) = 7 - 52 :=
    ulpExponent_eq _ 7 (by norm_num [abs_of_pos]) (by norm_num [abs_of_pos]) (by norm_num)
  rw [mulDouble, roundToDouble, hu]
  norm_num [roundHalfEven]

/-- The double nearest `1/3` is `6004799503160661 / 2^54`; three times it lies half way
between two doubles and rounds to the even one, `1`. -/
theorem mulDouble_third : mulDouble 3 (6004799503160661 / 2 ^ 54) = 1 := by
  have hu : ulpExponent ((3 : ℚ) * (6004799503160661 / 2 ^ 54)) = -1 - 52 :=
    ulpExponent_eq _ (-1) (by norm_num [abs_of_pos]) (by norm_num [abs_of_pos]) (by norm_num)
  rw [mulDouble, roundToDouble, hu]
  norm_num [roundHalfEven]

/-! ## `draw`, `blend` and `renderScanlines` -/

/-- C4: for every path, transform, fill rule and stroke data, `draw` with both paints
`None` returns the canvas it was given: no byte of the pixel buffer and no other canvas
state changes, whatever the AGG operations do (none of them is applied). -/
theorem draw_no_paint {R G : Type} (A : Agg R G) (self : CanvasImpl R) (path : Path)
    (matrix : AffineTransform) (fillRule : WindRule) (strokeData : StrokeData) :
    CanvasImpl.draw A self path matrix fillRule Paint.none Paint.none strokeData
      = some self := by
  simp [CanvasImpl.draw, Paint.isNone]

/-- C5 (as stated) fails: at opacity `0.5` the cover passed by `blend` is `127`, where
`round(clamp(opacity,0,1)·255)` is `128`; at opacity `2` the conversion of `510` to
`cover_type` is out of range, where the formula gives `255`. -/
theorem blend_cover_counterexample :
    blendCover (1 / 2) = some 127 ∧ coverSpec (1 / 2) = 128 ∧
    blendCover 2 = none ∧ coverSpec 2 = 255 := by
  refine ⟨?_, ?_, ?_, ?_⟩
  · rw [blendCover, mulDouble_half]
    norm_num [doubleToUint8, truncate]
    rfl
  · norm_num [coverSpec, clamp, round_eq]
  · rw [blendCover, mulDouble_two]
    norm_num [doubleToUint8, truncate]
  · norm_num [coverSpec, clamp, round_eq]

/-- C5 (amended): for every opacity in `[0,1]` the cover that `blend` passes to the
compositor is the double product `opacity * 255` truncated toward zero, an integer in
`0..255` that is at least `⌊opacity·255⌋` and at most `⌈opacity·255⌉` (`0.5` gives `127`),
the double product being within `2^-46` of the exact one; the opacity is not clamped: the
cover is undefined exactly when the double product is `≤ -1` or `≥ 256`. -/
theorem blend_cover {R G : Type} (A : Agg R G) (self source : CanvasImpl R) (mode : BlendMode)
    (opacity dx dy : Double) (x y : Int) (h0 : 0 ≤ opacity) (h1 : opacity ≤ 1)
    (hx : doubleToInt dx = some x) (hy : doubleToInt dy = some y) :
    blendCover opacity = some ⌊mulDouble opacity 255⌋.toNat ∧
    ⌊opacity * 255⌋ ≤ ⌊mulDouble opacity 255⌋ ∧
    ⌊mulDouble opacity 255⌋ ≤ ⌈opacity * 255⌉ ∧
    ⌊mulDouble opacity 255⌋.toNat ≤ 255 ∧
    |mulDouble opacity 255 - opacity * 255| ≤ 1 / 2 ^ 46 ∧
    CanvasImpl.blend A self source mode opacity dx dy
      = some (A.blend_from (to_agg_comp_op mode) source x y
          ⌊mulDouble opacity 255⌋.toNat self) ∧
    (∀ o : Double, blendCover o = none ↔ mulDouble o 255 ≤ -1 ∨ 256 ≤ mulDouble o 255) := by
  obtain ⟨hc, hlo, hhi, hb, herr⟩ := truncated_product (opacity * 255) (by positivity)
    (by linarith)
  have hc' : blendCover opacity = some ⌊mulDouble opacity 255⌋.toNat := hc
  refine ⟨hc', hlo, hhi, hb, herr, ?_, fun o => doubleToUint8_eq_none_iff _⟩
  simp [CanvasImpl.blend, hx, hy, hc']

/-- Witness of C5 (amended): opacity `1/2`, offsets `(3, 4)`, on the null back end. -/
theorem blend_cover_witness :
    ((0 : Double) ≤ 1 / 2 ∧ (1 / 2 : Double) ≤ 1 ∧ doubleToInt 3 = some 3 ∧
      doubleToInt 4 = some 4) ∧
    blendCover (1 / 2) = some ⌊mulDouble (1 / 2) 255⌋.toNat ∧
    ⌊(1 / 2 : Double) * 255⌋ ≤ ⌊mulDouble (1 / 2) 255⌋ ∧
    ⌊mulDouble (1 / 2) 255⌋ ≤ ⌈(1 / 2 : Double) * 255⌉ ∧
    ⌊mulDouble (1 / 2) 255⌋.toNat ≤ 255 ∧
    |mulDouble (1 / 2) 255 - (1 / 2 : Double) * 255| ≤ 1 / 2 ^ 46 ∧
    CanvasImpl.blend nullAgg (onePixel 0 0 0 0) (onePixel 1 1 1 1) BlendMode.BlendModeDst_In
        (1 / 2) 3 4
      = some (nullAgg.blend_from (to_agg_comp_op BlendMode.BlendModeDst_In) (onePixel 1 1 1 1)
          3 4 ⌊mulDouble (1 / 2) 255⌋.toNat (onePixel 0 0 0 0)) ∧
    (∀ o : Double, blendCover o = none ↔ mulDouble o 255 ≤ -1 ∨ 256 ≤ mulDouble o 255) :=
  ⟨⟨by norm_num, by norm_num, by norm_num [doubleToInt, truncate, checkInt, INT_MIN, INT_MAX],
      by norm_num [doubleToInt, truncate, checkInt, INT_MIN, INT_MAX]⟩,
    blend_cover nullAgg (onePixel 0 0 0 0) (onePixel 1 1 1 1) BlendMode.BlendModeDst_In
      (1 / 2) 3 4 3 4 (by norm_num) (by norm_num)
      (by norm_num [doubleToInt, truncate, checkInt, INT_MIN, INT_MAX])
      (by norm_num [doubleToInt, truncate, checkInt, INT_MIN, INT_MAX])⟩

/-- The cover at the double nearest `0.6` is `153`, the rounded product truncated (the
exact product is below `153`). -/
theorem blendCover_six_tenths :
    blendCover (5404319552844595 / 2 ^ 53) = some 153 ∧
    ⌊(5404319552844595 / 2 ^ 53 : Double) * 255⌋ = 152 := by
  refine ⟨?_, ?_⟩
  · rw [blendCover, mulDouble_six_tenths]
    norm_num [doubleToUint8, truncate]
    rfl
  · rw [Int.floor_eq_iff]
    norm_num

/-- C6 (as stated) fails: for `c.a = 255` and opacity `0.5` the alpha of the device colour
is `127`, where `round(c.a · opacity)` is `128`. -/
theorem solid_alpha_counterexample :
    solidColor ⟨10, 20, 30, 255⟩ (1 / 2) = some ⟨10, 20, 30, 127⟩ ∧
    alphaSpec 255 (1 / 2) = 128 := by
  refine ⟨?_, ?_⟩
  · have hm : mulDouble ((255 : Nat) : Double) (1 / 2) = 255 / 2 := by
      have e : ((255 : Nat) : Double) * (1 / 2) = (1 / 2) * 255 := by norm_num
      rw [mulDouble, e]
      exact mulDouble_half
    simp only [solidColor, hm]
    norm_num [doubleToUint8, truncate]
    rfl
  · norm_num [alphaSpec, round_eq]

/-- C6 (amended): for every colour `c` with `c.a` in `0..255` and every opacity in
`[0,1]`, the device colour that `renderScanlines` hands to the solid renderer has `r`,
`g`, `b` unchanged and as alpha the double product `c.a * opacity` truncated toward zero,
a value in `0..255` that is at least `⌊c.a · opacity⌋` and at most `⌈c.a · opacity⌉`
(`c.a = 255`, opacity `0.5` gives `127`), the double product being within `2^-46` of the
exact one. -/
theorem solid_alpha {R G : Type} (A : Agg R G) (self : CanvasImpl R) (matrix : trans_affine)
    (c : Rgb) (opacity : Double) (ha : c.a ≤ 255) (h0 : 0 ≤ opacity) (h1 : opacity ≤ 1) :
    solidColor c opacity
      = some ⟨c.r, c.g, c.b, ⌊mulDouble (c.a : Double) opacity⌋.toNat⟩ ∧
    ⌊(c.a : Double) * opacity⌋ ≤ ⌊mulDouble (c.a : Double) opacity⌋ ∧
    ⌊mulDouble (c.a : Double) opacity⌋ ≤ ⌈(c.a : Double) * opacity⌉ ∧
    ⌊mulDouble (c.a : Double) opacity⌋.toNat ≤ 255 ∧
    |mulDouble (c.a : Double) opacity - (c.a : Double) * opacity| ≤ 1 / 2 ^ 46 ∧
    CanvasImpl.renderScanlines A self matrix (Paint.color c opacity)
      = some (A.render_solid ⟨c.r, c.g, c.b, ⌊mulDouble (c.a : Double) opacity⌋.toNat⟩
          self) := by
  have ha' : (c.a : Double) ≤ 255 := by exact_mod_cast ha
  have ha0 : (0 : Double) ≤ c.a := by positivity
  obtain ⟨hc, hlo, hhi, hb, herr⟩ := truncated_product ((c.a : Double) * opacity)
    (by positivity) (by nlinarith)
  have hc' : doubleToUint8 (mulDouble (c.a : Double) opacity)
      = some ⌊mulDouble (c.a : Double) opacity⌋.toNat := hc
  have hs : solidColor c opacity
      = some ⟨c.r, c.g, c.b, ⌊mulDouble (c.a : Double) opacity⌋.toNat⟩ := by
    simp [solidColor, hc']
  exact ⟨hs, hlo, hhi, hb, herr, by simp [CanvasImpl.renderScanlines, hs]⟩

/-- Witness of C6 (amended): the colour `(10, 20, 30, 255)` at opacity `1/2`. -/
theorem solid_alpha_witness :
    ((255 : Nat) ≤ 255 ∧ (0 : Double) ≤ 1 / 2 ∧ (1 / 2 : Double) ≤ 1) ∧
    solidColor ⟨10, 20, 30, 255⟩ (1 / 2)
      = some ⟨10, 20, 30, ⌊mulDouble ((255 : Nat) : Double) (1 / 2)⌋.toNat⟩ ∧
    ⌊((255 : Nat) : Double) * (1 / 2)⌋ ≤ ⌊mulDouble ((255 : Nat) : Double) (1 / 2)⌋ ∧
    ⌊mulDouble ((255 : Nat) : Double) (1 / 2)⌋ ≤ ⌈((255 : Nat) : Double) * (1 / 2)⌉ ∧
    ⌊mulDouble ((255 : Nat) : Double) (1 / 2)⌋.toNat ≤ 255 ∧
    |mulDouble ((255 : Nat) : Double) (1 / 2) - ((255 : Nat) : Double) * (1 / 2)|
      ≤ 1 / 2 ^ 46 ∧
    CanvasImpl.renderScanlines nullAgg (onePixel 0 0 0 0) ⟨1, 0, 0, 1, 0, 0⟩
        (Paint.color ⟨10, 20, 30, 255⟩ (1 / 2))
      = some (nullAgg.render_solid
          ⟨10, 20, 30, ⌊mulDouble ((255 : Nat) : Double) (1 / 2)⌋.toNat⟩ (onePixel 0 0 0 0)) :=
  ⟨⟨by decide, by norm_num, by norm_num⟩,
    solid_alpha nullAgg (onePixel 0 0 0 0) ⟨1, 0, 0, 1, 0, 0⟩ ⟨10, 20, 30, 255⟩ (1 / 2)
      (by decide) (by norm_num) (by norm_num)⟩

/-- The alpha of `c.a = 3` at the double nearest `1/3` is `1`: the product rounds to `1`
(the exact product is below `1`). -/
theorem solidColor_third :
    solidColor ⟨10, 20, 30, 3⟩ (6004799503160661 / 2 ^ 54) = some ⟨10, 20, 30, 1⟩ ∧
    ⌊((3 : Nat) : Double) * (6004799503160661 / 2 ^ 54)⌋ = 0 := by
  refine ⟨?_, ?_⟩
  · have hm : mulDouble ((3 : Nat) : Double) (6004799503160661 / 2 ^ 54) = 1 := by
      have e : ((3 : Nat) : Double) = 3 := by norm_num
      rw [e]
      exact mulDouble_third
    simp only [solidColor, hm]
    norm_num [doubleToUint8, truncate]
  · rw [Int.floor_eq_iff]
    norm_num

/-! ## Dash arrays -/

theorem getElem?_eq_some_getD (l : List Double) (j : Nat) (h : j < l.length) :
    l[j]? = some (l.getD j 0) := by
  simp [List.getD_eq_getElem?_getD, List.getElem?_eq_getElem h]

theorem flattenPairs_cons (a b : Double) (rest : List (Double × Double)) :
    flattenPairs ((a, b) :: rest) = a :: b :: flattenPairs rest := by
  simp [flattenPairs]

/-- The `add_dash` loop started at an even counter `i` runs to the end and reads the
array cyclically at the indices `i, i+1, ..., num_dash - 1`. -/
theorem addDashLoop_spec (dashes : List Double) (num : Nat) (hn : 0 < dashes.length)
    (heven : num % 2 = 0) (hnum : num < 2 ^ 32) :
    ∀ (fuel i : Nat), i % 2 = 0 → i ≤ num → num - i ≤ 2 * fuel →
      ∃ pairs, addDashLoop dashes num fuel i = some pairs ∧
        flattenPairs pairs
          = (List.range' i (num - i)).map (fun j => dashes.getD (j % dashes.length) 0) ∧
        2 * pairs.length = num - i := by
  intro fuel
  induction fuel with
  | zero =>
    intro i _ hle hfuel
    have hi : ¬ i < num := by omega
    have e : num - i = 0 := by omega
    exact ⟨[], by simp [addDashLoop, hi], by simp [e, flattenPairs], by simp [e]⟩
  | succ fuel ih =>
    intro i hi hle hfuel
    by_cases hlt : i < num
    · have h32 : (2 : Nat) ^ 32 = 4294967296 := by norm_num
      have e1 : toUint32 (i + 1) = i + 1 := Nat.mod_eq_of_lt (by omega)
      have e2 : toUint32 (i + 2) = i + 2 := Nat.mod_eq_of_lt (by omega)
      obtain ⟨rest, hrest, hflat, hlen⟩ := ih (i + 2) (by omega) (by omega) (by omega)
      have g1 := getElem?_eq_some_getD dashes (i % dashes.length) (Nat.mod_lt _ hn)
      have g2 := getElem?_eq_some_getD dashes ((i + 1) % dashes.length) (Nat.mod_lt _ hn)
      refine ⟨(dashes.getD (i % dashes.length) 0, dashes.getD ((i + 1) % dashes.length) 0)
        :: rest, ?_, ?_, ?_⟩
      · simp only [addDashLoop, hlt, if_true, e1, e2, g1, g2, hrest, Option.bind_eq_bind,
          Option.some_bind, Option.pure_def]
      · have e : num - i = (num - (i + 2)) + 1 + 1 := by omega
        rw [flattenPairs_cons, hflat, e, List.range'_succ, List.range'_succ]
        simp
      · simp only [List.length_cons]
        omega
    · have e : num - i = 0 := by omega
      exact ⟨[], by simp [addDashLoop, hlt], by simp [e, flattenPairs], by simp [e]⟩

theorem map_range_cycle_once (l : List Double) :
    (List.range' 0 l.length).map (fun j => l.getD (j % l.length) 0) = l := by
  apply List.ext_getElem
  · simp
  · intro i h1 h2
    simp [Nat.mod_eq_of_lt h2, List.getD_eq_getElem?_getD, List.getElem?_eq_getElem h2]

theorem map_range_cycle_twice (l : List Double) :
    (List.range' 0 (l.length * 2)).map (fun j => l.getD (j % l.length) 0) = l ++ l := by
  apply List.ext_getElem
  · simp
    omega
  · intro i h1 h2
    simp only [List.length_append] at h2
    by_cases hi : i < l.length
    · simp [List.getElem_append_left hi, Nat.mod_eq_of_lt hi, List.getD_eq_getElem?_getD,
        List.getElem?_eq_getElem hi]
    · have hi' : i - l.length < l.length := by omega
      have hm : i % l.length = i - l.length := by
        rw [Nat.mod_eq_sub_mod (by omega), Nat.mod_eq_of_lt hi']
      simp [List.getElem_append_right (by omega : l.length ≤ i), hm,
        List.getD_eq_getElem?_getD, List.getElem?_eq_getElem hi']

theorem accumulate_nil : accumulate [] = 0 := rfl

/-- C10: for every dash array whose sum is non-zero (it is then non-empty), of fewer than
`2^31` entries, the stroke pass of `draw` builds the dashed pipeline, every index used by
the `add_dash` loop stays inside the array, and the `(on, off)` pairs added to the dasher,
flattened in order, are the dash array itself when its length is even and the dash array
repeated twice when its length is odd; an array of odd length `n` yields `n` pairs. -/
theorem stroke_dashes_doubled {R G : Type} (A : Agg R G) (_path : List PathCmd)
    (_matrix : trans_affine) (strokeData : StrokeData)
    (hsum : accumulate strokeData.dash ≠ 0) (hsize : strokeData.dash.length < 2 ^ 31) :
    ∃ pairs, addDashes strokeData.dash = some pairs ∧
      strokeSource A _path _matrix strokeData
        = some (VertexSource.conv_transform (VertexSource.conv_stroke
            (VertexSource.conv_dash (VertexSource.conv_curve (VertexSource.path_storage _path)
              (A.scale _matrix) 0) pairs strokeData.dashOffset)
            strokeData.width (to_agg_line_cap strokeData.cap)
            (to_agg_line_join strokeData.join) strokeData.miterLimit) _matrix) ∧
      flattenPairs pairs
        = (if strokeData.dash.length % 2 = 0 then strokeData.dash
            else strokeData.dash ++ strokeData.dash) ∧
      (strokeData.dash.length % 2 = 1 → pairs.length = strokeData.dash.length) := by
  have hn : 0 < strokeData.dash.length := by
    rcases h : strokeData.dash with _ | ⟨a, t⟩
    · rw [h] at hsum
      exact absurd accumulate_nil hsum
    · simp
  have h31 : (2 : Nat) ^ 31 = 2147483648 := by norm_num
  have h32 : (2 : Nat) ^ 32 = 4294967296 := by norm_num
  have h64 : (2 : Nat) ^ 64 = 18446744073709551616 := by norm_num
  by_cases hev : strokeData.dash.length % 2 = 0
  · have hnum : numDash strokeData.dash.length = strokeData.dash.length := by
      simp [numDash, hev]
    obtain ⟨pairs, hrun, hflat, hlen⟩ := addDashLoop_spec strokeData.dash
      strokeData.dash.length hn hev (by omega) strokeData.dash.length 0 (by omega) (by omega)
      (by omega)
    have hadd : addDashes strokeData.dash = some pairs := by
      simp only [addDashes, hnum]
      exact hrun
    refine ⟨pairs, hadd, ?_, ?_, fun h => by omega⟩
    · simp [strokeSource, hsum, hadd]
    · rw [if_pos hev, hflat, Nat.sub_zero, map_range_cycle_once]
  · have hnum : numDash strokeData.dash.length = strokeData.dash.length * 2 := by
      simp only [numDash, hev, if_false]
      exact Nat.mod_eq_of_lt (by omega)
    obtain ⟨pairs, hrun, hflat, hlen⟩ := addDashLoop_spec strokeData.dash
      (strokeData.dash.length * 2) hn (by omega) (by omega) (strokeData.dash.length * 2) 0
      (by omega) (by omega) (by omega)
    have hadd : addDashes strokeData.dash = some pairs := by
      simp only [addDashes, hnum]
      exact hrun
    refine ⟨pairs, hadd, ?_, ?_, fun _ => by omega⟩
    · simp [strokeSource, hsum, hadd]
    · rw [if_neg hev, hflat, Nat.sub_zero, map_range_cycle_twice]

/-- Witness of C10: the dash array `[1, 2, 3]` yields the pairs `(1,2), (3,1), (2,3)`. -/
theorem stroke_dashes_doubled_witness :
    (accumulate (strokeWith [1, 2, 3]).dash ≠ 0 ∧ (strokeWith [1, 2, 3]).dash.length < 2 ^ 31) ∧
    ∃ pairs, addDashes (strokeWith [1, 2, 3]).dash = some pairs ∧
      strokeSource nullAgg [PathCmd.move_to 10 100, PathCmd.line_to 190 100] ⟨1, 0, 0, 1, 0, 0⟩
          (strokeWith [1, 2, 3])
        = some (VertexSource.conv_transform (VertexSource.conv_stroke
            (VertexSource.conv_dash (VertexSource.conv_curve
              (VertexSource.path_storage [PathCmd.move_to 10 100, PathCmd.line_to 190 100])
              (nullAgg.scale ⟨1, 0, 0, 1, 0, 0⟩) 0) pairs (strokeWith [1, 2, 3]).dashOffset)
            (strokeWith [1, 2, 3]).width (to_agg_line_cap (strokeWith [1, 2, 3]).cap)
            (to_agg_line_join (strokeWith [1, 2, 3]).join) (strokeWith [1, 2, 3]).miterLimit)
            ⟨1, 0, 0, 1, 0, 0⟩) ∧
      flattenPairs pairs
        = (if (strokeWith [1, 2, 3]).dash.length % 2 = 0 then (strokeWith [1, 2, 3]).dash
            else (strokeWith [1, 2, 3]).dash ++ (strokeWith [1, 2, 3]).dash) ∧
      ((strokeWith [1, 2, 3]).dash.length % 2 = 1 →
        pairs.length = (strokeWith [1, 2, 3]).dash.length) :=
  ⟨⟨by norm_num [accumulate, strokeWith], by norm_num [strokeWith]⟩,
    stroke_dashes_doubled nullAgg [PathCmd.move_to 10 100, PathCmd.line_to 190 100]
      ⟨1, 0, 0, 1, 0, 0⟩ (strokeWith [1, 2, 3]) (by norm_num [accumulate, strokeWith])
      (by norm_num [strokeWith])⟩

end lunasvg
